import Mathlib

/-!
Verification of the altex PDF structure-injection engine.

This file gives a shallow embedding of the core of `altex` — the
content-stream rewriter, the text-matching linker, the structure-tree
builder, the annotation linker, the parent-tree builder and the heading
normaliser — and proves the stated properties about them.

Sources embedded:
* `altex/pdf_tagger.py` — `_tag_content_streams`, `_flush_artifact`,
  `_extract_tj_text`, `_normalize`, `_match_score`,
  `_link_structure_to_content`, `_build_element`,
  `_link_annotations_to_structure`, `_build_parent_tree`, parts of `tag`.
* `altex/latex_parser.py` — `_normalize_headings`, `_prune_empty_headings`,
  `_collect_heading_tags`, `_apply_heading_remap`.
* `altex/models.py` — `Tag`, `DocumentNode`.

Python strings are modelled as Lean `String` (a sequence of code points,
as in Python); PDF byte strings as `List Nat`; floats as `ℚ` (all the
numbers produced by `_match_score` are small exact ratios).
-/

namespace Altex

/-! ## PDF content-stream instructions

A `pikepdf` content-stream instruction is an operator together with a
list of operand objects.  Only the object shapes used by the tagger are
modelled: strings (bytes), numbers, names, arrays and dictionaries.
-/

/-- A PDF object occurring as an operand in a content stream. -/
inductive PdfAtom where
  | pstr (bytes : List Nat)
  | pnum (n : Int)
  | pname (s : String)
  | parr (items : List PdfAtom)
  | pdict (entries : List (String × PdfAtom))

/-- One content-stream instruction: operator plus operands, in stream order. -/
structure Inst where
  op : String
  operands : List PdfAtom

/-- Latin-1 decoding of a byte string: byte `b` becomes the code point `b`.
Latin-1 decoding never fails, so `errors="replace"` never fires. -/
def latin1Decode (bs : List Nat) : String :=
  String.mk (bs.map Char.ofNat)

/-- Embeds `_extract_tj_text`: reads the first operand; a PDF string is
decoded as Latin-1; a PDF array contributes the decoding of each string
element (other elements are dropped); anything else yields `""`. -/
def extractTjText (inst : Inst) : String :=
  match inst.operands with
  | [] => ""
  | operand :: _ =>
    match operand with
    | .parr items =>
        String.join (items.filterMap (fun item =>
          match item with
          | .pstr bs => some (latin1Decode bs)
          | _ => none))
    | .pstr bs => latin1Decode bs
    | _ => ""

/-- The set `_TEXT_OPS` of text-drawing operators. -/
def textOps : List String := ["Tj", "TJ", "'", "\""]

/-- The `EMC` instruction emitted by the rewriter. -/
def emcInst : Inst := ⟨"EMC", []⟩

/-- A `BT` instruction (no operands). -/
def btInst : Inst := ⟨"BT", []⟩

/-- An `ET` instruction (no operands). -/
def etInst : Inst := ⟨"ET", []⟩

/-- The `BDC /Artifact {}` instruction emitted by `_flush_artifact`. -/
def bdcArtifactInst : Inst := ⟨"BDC", [.pname ("/Artifact"), .pdict []]⟩

/-- A Python `str` stored as a PDF string object (`pikepdf.String(text)`). -/
def strAtom (s : String) : PdfAtom := .pstr (s.data.map Char.toNat)

/-- The properties dictionary `{/MCID: mcid}` plus `/ActualText` exactly
when `text` is non-empty, in the order `_tag_content_streams` builds it. -/
def spanProps (mcid : Nat) (text : String) : List (String × PdfAtom) :=
  [("/MCID", .pnum (mcid : Int))] ++
    (if text = "" then [] else [("/ActualText", strAtom text)])

/-- The `BDC /Span props` instruction wrapped around one text operator. -/
def bdcSpanInst (mcid : Nat) (text : String) : Inst :=
  ⟨"BDC", [.pname ("/Span"), .pdict (spanProps mcid text)]⟩

/-- Embeds `_flush_artifact`: an empty pending buffer emits nothing,
otherwise the buffer is wrapped in `BDC /Artifact {} … EMC`. -/
def flushArtifact (out pending : List Inst) : List Inst :=
  if pending.isEmpty then out
  else out ++ bdcArtifactInst :: (pending ++ [emcInst])

/-- The loop state of `_tag_content_streams` for one page. -/
structure TagState where
  newInsts : List Inst
  mcidMap : List (Nat × String)
  mcid : Nat
  inBT : Bool
  pending : List Inst

/-- One iteration of the instruction loop in `_tag_content_streams`. -/
def tagStep (s : TagState) (inst : Inst) : TagState :=
  if inst.op = "BT" then
    { newInsts := flushArtifact s.newInsts s.pending ++ [inst]
      mcidMap := s.mcidMap
      mcid := s.mcid
      inBT := true
      pending := [] }
  else if inst.op = "ET" then
    { s with newInsts := s.newInsts ++ [inst], inBT := false }
  else if s.inBT = true ∧ inst.op ∈ textOps then
    let text := extractTjText inst
    { s with
        newInsts := s.newInsts ++ [bdcSpanInst s.mcid text, inst, emcInst]
        mcidMap := s.mcidMap ++ [(s.mcid, text)]
        mcid := s.mcid + 1 }
  else if s.inBT = true then
    { s with newInsts := s.newInsts ++ [inst] }
  else
    { s with pending := s.pending ++ [inst] }

/-- The initial per-page state of `_tag_content_streams`. -/
def initTagState : TagState := ⟨[], [], 0, false, []⟩

/-- Embeds the per-page body of `_tag_content_streams`: runs the
instruction loop and flushes the remaining non-BT content, returning the
rewritten stream and the page's `(mcid, extracted_text)` table. -/
def tagPage (insts : List Inst) : List Inst × List (Nat × String) :=
  let s := insts.foldl tagStep initTagState
  (flushArtifact s.newInsts s.pending, s.mcidMap)

/-! ## Specification-side description of the rewritten stream

The input stream of a page is presented in its block structure: a list
of pairs `(run, body)` — a run of instructions outside any `BT … ET`
block followed by the body of one `BT … ET` block — and a trailing
outside run.  `flattenSegs` recovers the flat instruction stream.
-/

/-- Instructions free of `BT` and `ET` operators. -/
def noCtl (l : List Inst) : Prop := ∀ i ∈ l, i.op ≠ "BT" ∧ i.op ≠ "ET"

instance (l : List Inst) : Decidable (noCtl l) := by
  unfold noCtl; infer_instance

/-- Rebuilds the flat page stream from its block structure. -/
def flattenSegs : List (List Inst × List Inst) → List Inst → List Inst
  | [], tail => tail
  | (run, body) :: rest, tail =>
      run ++ btInst :: (body ++ etInst :: flattenSegs rest tail)

/-- Spec: the marked-content wrapper around one text-drawing operator —
an immediately preceding `BDC /Span {/MCID …}` (with `/ActualText`
exactly when the extracted text is non-empty) and an immediately
following `EMC`. -/
def wrapTextOp (mcid : Nat) (inst : Inst) : List Inst :=
  [bdcSpanInst mcid (extractTjText inst), inst, emcInst]

/-- Spec: inside a `BT … ET` block every text-drawing operator is
wrapped by `wrapTextOp` with consecutively allocated MCIDs; all other
instructions are emitted unchanged. -/
def tagBlockBody (m : Nat) : List Inst → List Inst
  | [] => []
  | inst :: rest =>
    if inst.op ∈ textOps then wrapTextOp m inst ++ tagBlockBody (m + 1) rest
    else inst :: tagBlockBody m rest

/-- Spec: the `(mcid, extracted_text)` entries contributed by one block
body, with the page-local counter starting at `m`. -/
def blockEntries (m : Nat) : List Inst → List (Nat × String)
  | [] => []
  | inst :: rest =>
    if inst.op ∈ textOps then (m, extractTjText inst) :: blockEntries (m + 1) rest
    else blockEntries m rest

/-- Number of text-drawing operators in an instruction list. -/
def countTextOps (l : List Inst) : Nat :=
  l.countP (fun i => decide (i.op ∈ textOps))

/-- Spec: a maximal run outside `BT … ET` is enclosed in a single
`BDC /Artifact {} … EMC` wrapper; an empty run emits no wrapper. -/
def wrapArtifactRun (run : List Inst) : List Inst :=
  if run.isEmpty then [] else bdcArtifactInst :: (run ++ [emcInst])

/-- Spec: the rewritten stream of the leading segments (without the
trailing run), threading the MCID counter through the blocks. -/
def specSegsOut (m : Nat) : List (List Inst × List Inst) → List Inst
  | [] => []
  | (run, body) :: rest =>
      wrapArtifactRun run ++ btInst ::
        (tagBlockBody m body ++ etInst :: specSegsOut (m + countTextOps body) rest)

/-- Spec: the complete rewritten page stream — each outside run in a
single artifact wrapper (flushed at the next `BT` or at end of stream),
each text operator inside a block in its own `BDC /Span … EMC`. -/
def specTaggedStream (m : Nat) (segs : List (List Inst × List Inst))
    (tail : List Inst) : List Inst :=
  specSegsOut m segs ++ wrapArtifactRun tail

/-- Spec: the `(mcid, extracted_text)` table of the whole page. -/
def specEntries (m : Nat) : List (List Inst × List Inst) → List (Nat × String)
  | [] => []
  | (_, body) :: rest => blockEntries m body ++ specEntries (m + countTextOps body) rest

/-! ### Fold lemmas for the rewriter loop -/

theorem flushArtifact_eq (out pending : List Inst) :
    flushArtifact out pending = out ++ wrapArtifactRun pending := by
  unfold flushArtifact wrapArtifactRun
  split <;> simp_all

/-- Outside a text block the loop only accumulates into `pending`. -/
theorem foldl_tagStep_run (r : List Inst) :
    ∀ s : TagState, noCtl r → s.inBT = false →
      r.foldl tagStep s = { s with pending := s.pending ++ r } := by
  induction r with
  | nil => intro s _ _; simp
  | cons i rest ih =>
    intro s hctl hbt
    obtain ⟨h1, h2⟩ := hctl i (List.mem_cons_self ..)
    have hrest : noCtl rest := fun j hj => hctl j (List.mem_cons_of_mem _ hj)
    have hstep : tagStep s i = { s with pending := s.pending ++ [i] } := by
      unfold tagStep
      rw [if_neg h1, if_neg h2, if_neg (by simp [hbt]), if_neg (by simp [hbt])]
    rw [List.foldl_cons, hstep, ih _ hrest (by simp [hbt])]
    simp

/-- Inside a text block the loop wraps text operators and leaves the
rest unchanged, incrementing the MCID counter per text operator. -/
theorem foldl_tagStep_body (b : List Inst) :
    ∀ s : TagState, noCtl b → s.inBT = true →
      b.foldl tagStep s =
        { s with
            newInsts := s.newInsts ++ tagBlockBody s.mcid b
            mcidMap := s.mcidMap ++ blockEntries s.mcid b
            mcid := s.mcid + countTextOps b } := by
  induction b with
  | nil => intro s _ _; simp [tagBlockBody, blockEntries, countTextOps]
  | cons i rest ih =>
    intro s hctl hbt
    obtain ⟨h1, h2⟩ := hctl i (List.mem_cons_self ..)
    have hrest : noCtl rest := fun j hj => hctl j (List.mem_cons_of_mem _ hj)
    by_cases htxt : i.op ∈ textOps
    · have hstep : tagStep s i =
          { s with
              newInsts := s.newInsts ++ [bdcSpanInst s.mcid (extractTjText i), i, emcInst]
              mcidMap := s.mcidMap ++ [(s.mcid, extractTjText i)]
              mcid := s.mcid + 1 } := by
        unfold tagStep
        rw [if_neg h1, if_neg h2, if_pos ⟨hbt, htxt⟩]
      rw [List.foldl_cons, hstep, ih _ hrest (by simp [hbt])]
      simp [tagBlockBody, blockEntries, countTextOps, htxt, wrapTextOp,
        List.countP_cons]
      omega
    · have hstep : tagStep s i = { s with newInsts := s.newInsts ++ [i] } := by
        unfold tagStep
        rw [if_neg h1, if_neg h2, if_neg (by simp [htxt]), if_pos hbt]
      rw [List.foldl_cons, hstep, ih _ hrest (by simp [hbt])]
      simp [tagBlockBody, blockEntries, countTextOps, htxt, List.countP_cons]

/-- Total text-operator count of the leading segments. -/
def totalTextOps : List (List Inst × List Inst) → Nat
  | [] => 0
  | (_, body) :: rest => countTextOps body + totalTextOps rest

/-- Processing the segmented stream from a state that is outside a block
with an empty pending buffer. -/
theorem foldl_tagStep_segs (segs : List (List Inst × List Inst)) :
    ∀ (tail : List Inst) (s : TagState),
      (∀ p ∈ segs, noCtl p.1 ∧ noCtl p.2) → noCtl tail →
      s.inBT = false → s.pending = [] →
      (flattenSegs segs tail).foldl tagStep s =
        { newInsts := s.newInsts ++ specSegsOut s.mcid segs
          mcidMap := s.mcidMap ++ specEntries s.mcid segs
          mcid := s.mcid + totalTextOps segs
          inBT := false
          pending := tail } := by
  induction segs with
  | nil =>
    intro tail s _ htail hbt hp
    rw [flattenSegs, foldl_tagStep_run tail s htail hbt]
    simp [specSegsOut, specEntries, totalTextOps, hp, ← hbt]
  | cons seg rest ih =>
    intro tail s hsegs htail hbt hp
    obtain ⟨run, body⟩ := seg
    obtain ⟨hrun, hbody⟩ := hsegs _ (List.mem_cons_self ..)
    have hrest : ∀ p ∈ rest, noCtl p.1 ∧ noCtl p.2 :=
      fun p hpmem => hsegs p (List.mem_cons_of_mem _ hpmem)
    rw [flattenSegs, List.foldl_append,
      foldl_tagStep_run run s hrun hbt, List.foldl_cons]
    have hbtstep : tagStep { s with pending := s.pending ++ run } btInst =
        { newInsts := flushArtifact s.newInsts (s.pending ++ run) ++ [btInst]
          mcidMap := s.mcidMap
          mcid := s.mcid
          inBT := true
          pending := [] } := by
      unfold tagStep btInst
      rw [if_pos rfl]
    rw [hbtstep, List.foldl_append,
      foldl_tagStep_body body _ hbody rfl, List.foldl_cons]
    have hetstep : ∀ t : TagState, tagStep t etInst =
        { t with newInsts := t.newInsts ++ [etInst], inBT := false } := by
      intro t
      unfold tagStep etInst
      rw [if_neg (by simp), if_pos rfl]
    rw [hetstep, ih tail _ hrest htail rfl rfl]
    simp [specSegsOut, specEntries, totalTextOps, hp, flushArtifact_eq]
    omega

/-- Claim C1: for a page stream presented in its block structure, the
rewritten content stream is exactly the specified shape: every
text-drawing operator inside a `BT … ET` block is immediately preceded
by `BDC /Span {/MCID n}` (with `/ActualText` exactly when the extracted
text is non-empty) and immediately followed by `EMC`; every maximal run
of operators outside `BT … ET` blocks is enclosed in a single
`BDC /Artifact {} … EMC` wrapper, flushed at the next `BT` or at end of
stream; an empty run emits no wrapper. -/
theorem rewritten_stream_matches_spec (segs : List (List Inst × List Inst))
    (tail : List Inst) (hsegs : ∀ p ∈ segs, noCtl p.1 ∧ noCtl p.2)
    (htail : noCtl tail) :
    (tagPage (flattenSegs segs tail)).1 = specTaggedStream 0 segs tail := by
  unfold tagPage
  rw [foldl_tagStep_segs segs tail initTagState hsegs htail rfl rfl]
  simp [specTaggedStream, flushArtifact_eq, initTagState]

/-- Witness for C1 at a concrete page: one graphics run, one text block
with a positioning operator and a `Tj`, and a trailing rule. -/
theorem rewritten_stream_matches_spec_witness :
    (tagPage (flattenSegs [([⟨"q", []⟩], [⟨"Td", [.pnum 1, .pnum 2]⟩,
        ⟨"Tj", [.pstr [104, 105]]⟩])] [⟨"re", []⟩])).1 =
      specTaggedStream 0 [([⟨"q", []⟩], [⟨"Td", [.pnum 1, .pnum 2]⟩,
        ⟨"Tj", [.pstr [104, 105]]⟩])] [⟨"re", []⟩] :=
  rewritten_stream_matches_spec _ _ (by decide) (by decide)

theorem blockEntries_map_fst (b : List Inst) :
    ∀ m, (blockEntries m b).map Prod.fst = List.range' m (countTextOps b) := by
  induction b with
  | nil => intro m; simp [blockEntries, countTextOps]
  | cons i rest ih =>
    intro m
    by_cases htxt : i.op ∈ textOps <;>
      simp [blockEntries, countTextOps, htxt, List.countP_cons, ih,
        List.range'_succ]

theorem specEntries_map_fst (segs : List (List Inst × List Inst)) :
    ∀ m, (specEntries m segs).map Prod.fst = List.range' m (totalTextOps segs) := by
  induction segs with
  | nil => intro m; simp [specEntries, totalTextOps]
  | cons seg rest ih =>
    intro m
    obtain ⟨run, body⟩ := seg
    have happ := List.range'_append m (countTextOps body) (totalTextOps rest) 1
    simp only [one_mul, Nat.add_comm (totalTextOps rest)] at happ
    simp [specEntries, totalTextOps, blockEntries_map_fst, ih, ← happ]

theorem countTextOps_flattenSegs (segs : List (List Inst × List Inst)) :
    ∀ tail, (∀ p ∈ segs, countTextOps p.1 = 0) → countTextOps tail = 0 →
      countTextOps (flattenSegs segs tail) = totalTextOps segs := by
  induction segs with
  | nil => intro tail _ htail; simpa [flattenSegs, totalTextOps] using htail
  | cons seg rest ih =>
    intro tail hsegs htail
    obtain ⟨run, body⟩ := seg
    have hrun : countTextOps run = 0 := hsegs _ (List.mem_cons_self ..)
    have hrest := ih tail (fun p hp => hsegs p (List.mem_cons_of_mem _ hp)) htail
    rw [flattenSegs, totalTextOps]
    unfold countTextOps at hrun hrest ⊢
    simp only [List.countP_append, List.countP_cons]
    have hbt : (if decide (btInst.op ∈ textOps) = true then 1 else 0) = 0 := rfl
    have het : (if decide (etInst.op ∈ textOps) = true then 1 else 0) = 0 := rfl
    rw [hbt, het, hrun, hrest]
    omega

/-- Claim C2: for a page whose text-drawing operators all occur between
`BT` and `ET` and number `k`, the page's `(mcid, extracted_text)` table
has exactly `k` entries whose MCIDs are `0, 1, …, k-1` in increasing
order — a page-local counter starting at 0 and incrementing on every
text-drawing operator. -/
theorem mcid_table_dense (segs : List (List Inst × List Inst)) (tail : List Inst)
    (hsegs : ∀ p ∈ segs, noCtl p.1 ∧ noCtl p.2) (htail : noCtl tail)
    (hruns : ∀ p ∈ segs, countTextOps p.1 = 0) (htail2 : countTextOps tail = 0) :
    ((tagPage (flattenSegs segs tail)).2).map Prod.fst =
      List.range (countTextOps (flattenSegs segs tail)) := by
  unfold tagPage
  rw [foldl_tagStep_segs segs tail initTagState hsegs htail rfl rfl]
  simp only [initTagState, List.nil_append]
  rw [countTextOps_flattenSegs segs tail hruns htail2, specEntries_map_fst,
    List.range_eq_range']

/-- Witness for C2 at a concrete page with two text operators. -/
theorem mcid_table_dense_witness :
    ((tagPage (flattenSegs [([⟨"q", []⟩], [⟨"Tj", [.pstr [104]]⟩,
        ⟨"TJ", [.parr [.pstr [105], .pnum 3]]⟩])] [])).2).map Prod.fst =
      List.range (countTextOps (flattenSegs [([⟨"q", []⟩],
        [⟨"Tj", [.pstr [104]]⟩, ⟨"TJ", [.parr [.pstr [105], .pnum 3]]⟩])] [])) :=
  mcid_table_dense _ _ (by decide) (by decide) (by decide) (by decide)

/-! ## Claim C8: text extraction from text-drawing instructions -/

/-- Spec: the string elements of a `TJ` operand array, in order, with
numeric kerning elements (and anything else) dropped. -/
def stringElems : List PdfAtom → List (List Nat)
  | [] => []
  | .pstr bs :: rest => bs :: stringElems rest
  | _ :: rest => stringElems rest

theorem filterMap_decode_eq_stringElems (items : List PdfAtom) :
    items.filterMap (fun item =>
        match item with
        | .pstr bs => some (latin1Decode bs)
        | _ => none) =
      (stringElems items).map latin1Decode := by
  induction items with
  | nil => simp [stringElems]
  | cons item rest ih =>
    cases item <;> simp [stringElems, List.filterMap_cons, ih]

/-- Claim C8 as amended: `Tj` decodes its string operand as Latin-1;
`TJ` concatenates the Latin-1 decodings of the string elements of its
operand array, dropping numeric kerning elements; `'` is treated like
`Tj`; but for `"` the extraction reads the first operand — the numeric
word-spacing parameter, not the string — and yields the empty string. -/
theorem extract_text_rules :
    (∀ (bs : List Nat) (rest : List PdfAtom),
        extractTjText ⟨"Tj", .pstr bs :: rest⟩ = latin1Decode bs) ∧
    (∀ (items : List PdfAtom) (rest : List PdfAtom),
        extractTjText ⟨"TJ", .parr items :: rest⟩ =
          String.join ((stringElems items).map latin1Decode)) ∧
    (∀ (bs : List Nat) (rest : List PdfAtom),
        extractTjText ⟨"'", .pstr bs :: rest⟩ = latin1Decode bs) ∧
    (∀ (aw ac : Int) (bs : List Nat) (rest : List PdfAtom),
        extractTjText ⟨"\"", .pnum aw :: .pnum ac :: .pstr bs :: rest⟩ = "") := by
  refine ⟨fun bs rest => rfl, fun items rest => ?_, fun bs rest => rfl,
    fun aw ac bs rest => rfl⟩
  simp [extractTjText, filterMap_decode_eq_stringElems]

/-- Counterexample to C8 as stated: a `"` instruction whose string
operand decodes to `"hi"` extracts as `""`, not as the decoded string
operand. -/
theorem extract_text_quote_counterexample :
    extractTjText ⟨"\"", [.pnum 0, .pnum 0, .pstr [104, 105]]⟩ = "" ∧
      latin1Decode [104, 105] = "hi" ∧
      extractTjText ⟨"\"", [.pnum 0, .pnum 0, .pstr [104, 105]]⟩ ≠
        latin1Decode [104, 105] := by
  refine ⟨rfl, by decide, by decide⟩

/-! ## Claim C5: the match score

`_match_score` works on Python `str` values; lengths are code-point
counts and `str.split()` splits on whitespace runs, dropping empties.
Scores are exact small ratios, modelled in `ℚ`.
-/

/-- Accumulator pass behind `pyWords`: splits on whitespace, dropping
empty fragments, like Python `str.split()`. -/
def wordsAux : List Char → List Char → List String
  | [], acc => if acc.isEmpty then [] else [String.mk acc.reverse]
  | c :: rest, acc =>
    if c.isWhitespace then
      if acc.isEmpty then wordsAux rest []
      else String.mk acc.reverse :: wordsAux rest []
    else wordsAux rest (c :: acc)

/-- Python `s.split()`: maximal whitespace-free fragments of `s`. -/
def pyWords (s : String) : List String := wordsAux s.data []

/-- The set `W_s` of whitespace-separated tokens of `s`. -/
def wordSet (s : String) : Finset String := (pyWords s).toFinset

/-- Python `needle in hay`: `needle` occurs contiguously in `hay`. -/
def containsSub (hay needle : String) : Bool :=
  (List.range (hay.data.length + 1)).any
    (fun i => needle.data.isPrefixOf (hay.data.drop i))

/-- Embeds `_match_score`: 1.0 on equality; length ratio on substring
containment (0.0 when both are empty); otherwise word-set overlap over
the larger word count (0.0 when the needle has no words). -/
def matchScore (needle haystack : String) : ℚ :=
  if needle = haystack then 1
  else if containsSub haystack needle || containsSub needle haystack then
    let shorter : ℕ := min needle.length haystack.length
    let longer : ℕ := max needle.length haystack.length
    if 0 < longer then (shorter : ℚ) / (longer : ℚ) else 0
  else
    let nw := wordSet needle
    let hw := wordSet haystack
    if nw = ∅ then 0
    else ((nw ∩ hw).card : ℚ) / ((max nw.card hw.card : ℕ) : ℚ)

/-- The linker's test `_match_score(...) > 0.3`, phrased over integers
so that it evaluates by kernel reduction; `score_gt_threshold_iff`
proves it equal to the rational comparison. -/
def scoreGtThreshold (needle haystack : String) : Bool :=
  if needle = haystack then true
  else if containsSub haystack needle || containsSub needle haystack then
    decide (3 * max needle.length haystack.length <
      10 * min needle.length haystack.length)
  else
    let nw := wordSet needle
    let hw := wordSet haystack
    if nw = ∅ then false
    else decide (3 * max nw.card hw.card < 10 * (nw ∩ hw).card)

theorem string_eq_empty_of_length {s : String} (h : s.length = 0) : s = "" := by
  cases s with
  | mk data => simp [String.length] at h; simp [h]

theorem score_gt_threshold_iff (n h : String) :
    scoreGtThreshold n h = true ↔ (3 : ℚ) / 10 < matchScore n h := by
  unfold scoreGtThreshold matchScore
  by_cases heq : n = h
  · simp only [heq, if_pos rfl]
    norm_num
  · rw [if_neg heq, if_neg heq]
    by_cases hsub : (containsSub h n || containsSub n h) = true
    · rw [if_pos hsub, if_pos hsub]
      rcases Nat.eq_zero_or_pos (max n.length h.length) with hz | hpos
      · exfalso
        have h1 : n.length = 0 := by omega
        have h2 : h.length = 0 := by omega
        exact heq ((string_eq_empty_of_length h1).trans
          (string_eq_empty_of_length h2).symm)
      · rw [if_pos hpos]
        have hq : (0 : ℚ) < ((max n.length h.length : ℕ) : ℚ) := by
          exact_mod_cast hpos
        rw [decide_eq_true_eq, div_lt_div_iff₀ (by norm_num) hq]
        norm_cast
        omega
    · rw [if_neg hsub, if_neg hsub]
      by_cases hnw : wordSet n = ∅
      · rw [if_pos hnw, if_pos hnw]
        norm_num
      · rw [if_neg hnw, if_neg hnw]
        have hcard : 0 < (wordSet n).card := Finset.card_pos.mpr
          (Finset.nonempty_iff_ne_empty.mpr hnw)
        have hq : (0 : ℚ) < ((max (wordSet n).card (wordSet h).card : ℕ) : ℚ) := by
          have : 0 < max (wordSet n).card (wordSet h).card := by omega
          exact_mod_cast this
        rw [decide_eq_true_eq, div_lt_div_iff₀ (by norm_num) hq]
        norm_cast
        omega

theorem containsSub_empty_needle (s : String) : containsSub s ("") = true := by
  unfold containsSub
  rw [List.any_eq_true]
  exact ⟨0, by simp, by simp⟩

/-- Claim C5 as amended: the score is 1 on equal strings, the length
ratio `min/max` on proper substring containment, and the word-overlap
ratio `|W_n ∩ W_h| / max(|W_n|, |W_h|)` otherwise; it always lies in
`[0, 1]`, `score(n, n) = 1`, and `score(n, "") = 0` for every non-empty
`n` (for `n = ""` the equality rule fires first and gives 1). -/
theorem match_score_spec (n h : String) :
    (n = h → matchScore n h = 1) ∧
    (n ≠ h → (containsSub h n || containsSub n h) = true →
      matchScore n h =
        ((min n.length h.length : ℕ) : ℚ) / ((max n.length h.length : ℕ) : ℚ)) ∧
    (n ≠ h → (containsSub h n || containsSub n h) = false →
      matchScore n h = ((wordSet n ∩ wordSet h).card : ℚ) /
        ((max (wordSet n).card (wordSet h).card : ℕ) : ℚ)) ∧
    matchScore n n = 1 ∧
    (0 ≤ matchScore n h ∧ matchScore n h ≤ 1) ∧
    (n ≠ "" → matchScore n ("") = 0) := by
  refine ⟨?_, ?_, ?_, by simp [matchScore], ?_, ?_⟩
  · intro heq; simp [matchScore, heq]
  · intro heq hsub
    unfold matchScore
    rw [if_neg heq, if_pos hsub]
    rcases Nat.eq_zero_or_pos (max n.length h.length) with hz | hpos
    · exact absurd ((string_eq_empty_of_length (by omega)).trans
        (string_eq_empty_of_length (show h.length = 0 by omega)).symm) heq
    · rw [if_pos hpos]
  · intro heq hsub
    unfold matchScore
    rw [if_neg heq, if_neg (by simp [hsub])]
    by_cases hnw : wordSet n = ∅
    · rw [if_pos hnw, hnw]
      simp
    · rw [if_neg hnw]
  · unfold matchScore
    by_cases heq : n = h
    · rw [if_pos heq]; norm_num
    · rw [if_neg heq]
      by_cases hsub : (containsSub h n || containsSub n h) = true
      · rw [if_pos hsub]
        rcases Nat.eq_zero_or_pos (max n.length h.length) with hz | hpos
        · rw [if_neg (by omega)]; norm_num
        · rw [if_pos hpos]
          have hq : (0 : ℚ) < ((max n.length h.length : ℕ) : ℚ) := by
            exact_mod_cast hpos
          constructor
          · positivity
          · rw [div_le_one hq]
            exact_mod_cast (min_le_max : min n.length h.length ≤ max n.length h.length)
      · rw [if_neg hsub]
        by_cases hnw : wordSet n = ∅
        · rw [if_pos hnw]; norm_num
        · rw [if_neg hnw]
          have hcard : 0 < (wordSet n).card := Finset.card_pos.mpr
            (Finset.nonempty_iff_ne_empty.mpr hnw)
          have hq : (0 : ℚ) < ((max (wordSet n).card (wordSet h).card : ℕ) : ℚ) := by
            have : 0 < max (wordSet n).card (wordSet h).card := by omega
            exact_mod_cast this
          constructor
          · positivity
          · rw [div_le_one hq]
            have hle : (wordSet n ∩ wordSet h).card ≤
                max (wordSet n).card (wordSet h).card :=
              le_trans (Finset.card_le_card Finset.inter_subset_left) (le_max_left ..)
            exact_mod_cast hle
  · intro hne
    unfold matchScore
    rw [if_neg hne, if_pos (by simp [containsSub_empty_needle])]
    have hpos : 0 < max n.length (("" : String).length) := by
      rcases Nat.eq_zero_or_pos n.length with hz | hp
      · exact absurd (string_eq_empty_of_length hz) hne
      · exact lt_of_lt_of_le hp (le_max_left ..)
    rw [if_pos hpos]
    have hmin : min n.length (("" : String).length) = 0 := by
      have : ("" : String).length = 0 := rfl
      omega
    simp [hmin]

/-- Witness for C5: the substring branch at `("ab", "b")` gives `1/2`,
and the empty-haystack rule at `("a", "")` gives `0`. -/
theorem match_score_spec_witness :
    matchScore ("ab") ("b") =
      ((min ("ab" : String).length ("b" : String).length : ℕ) : ℚ) /
        ((max ("ab" : String).length ("b" : String).length : ℕ) : ℚ) ∧
      matchScore ("a") ("") = 0 :=
  ⟨(match_score_spec ("ab") ("b")).2.1 (by decide) (by decide),
   (match_score_spec ("a") ("")).2.2.2.2.2 (by decide)⟩

/-- Counterexample to C5 as stated: `score("", "") = 1`, not `0` — the
equality rule precedes the empty-haystack expectation. -/
theorem match_score_empty_counterexample :
    matchScore ("") ("") = 1 ∧ matchScore ("") ("") ≠ 0 := by
  constructor
  · simp [matchScore]
  · simp [matchScore]

/-! ## Claim C4: the structure ↔ MCID linker

`_link_structure_to_content` scans, for each leaf element in tree
order, the flat list of all MCIDs (page order, then position order) and
claims every still-unclaimed MCID with non-empty normalised text whose
match score exceeds 0.3.  Leaf structure elements are identified by
their position in `leaf_elems`; only the leaf's node text matters here.
-/

/-- Embeds `_normalize`: lowercase, then collapse whitespace runs. -/
def pyNormalize (s : String) : String :=
  String.intercalate " " (pyWords (String.mk (s.data.map Char.toLower)))

/-- One row of the flat `all_mcids` list: `(page_idx, mcid, text)`. -/
structure McidEntry where
  page : Nat
  mcid : Nat
  text : String
deriving DecidableEq

/-- A marked-content reference `{/Type /MCR, /Pg page, /MCID mcid}`
(the page object is modelled by the page index). -/
structure MCR where
  page : Nat
  mcid : Nat
deriving DecidableEq

/-- The `(page_idx, mcid)` key of an MCID row. -/
def mcidKey (e : McidEntry) : Nat × Nat := (e.page, e.mcid)

/-- The `(page_idx, mcid)` key of an MCR. -/
def mcrKey (m : MCR) : Nat × Nat := (m.page, m.mcid)

/-- The `/K` value the linker stores on a leaf: a single MCR or an
array of MCRs. -/
inductive LeafK where
  | single (m : MCR)
  | array (ms : List MCR)
deriving DecidableEq

/-- Flat list of all MCIDs with page references, in page order then
position order, as built at the top of `_link_structure_to_content`. -/
def allMcidsOf (pageMaps : List (List (Nat × String))) : List McidEntry :=
  (pageMaps.enum.map (fun pe => pe.2.map (fun mt => ⟨pe.1, mt.1, mt.2⟩))).flatten

/-- The inner scan of `_link_structure_to_content` for one leaf with
normalised text `nodeNorm`: walk the MCID list, skip claimed MCIDs and
MCIDs with empty normalised text, claim on score > 0.3.  Returns the
matched MCRs in scan order and the updated claimed set. -/
def scanLeaf (nodeNorm : String) : List McidEntry → List (Nat × Nat) →
    List MCR × List (Nat × Nat)
  | [], used => ([], used)
  | e :: rest, used =>
    if mcidKey e ∈ used then scanLeaf nodeNorm rest used
    else if pyNormalize e.text = "" then scanLeaf nodeNorm rest used
    else if scoreGtThreshold nodeNorm (pyNormalize e.text) then
      let res := scanLeaf nodeNorm rest (used ++ [mcidKey e])
      (⟨e.page, e.mcid⟩ :: res.1, res.2)
    else scanLeaf nodeNorm rest used

/-- The leaf loop of `_link_structure_to_content`.  `idx` is the
position of the current leaf in `leaf_elems` (standing in for the
StructElem object).  Returns the `/K` assignment per leaf (`none` when
the leaf was skipped or matched nothing) and the ownership list. -/
def linkLoop : List String → List McidEntry → List (Nat × Nat) → Nat →
    List (Option LeafK) × List ((Nat × Nat) × Nat)
  | [], _, _, _ => ([], [])
  | t :: rest, entries, used, idx =>
    if t = "" then
      let res := linkLoop rest entries used (idx + 1)
      (none :: res.1, res.2)
    else if pyNormalize t = "" then
      let res := linkLoop rest entries used (idx + 1)
      (none :: res.1, res.2)
    else
      let scan := scanLeaf (pyNormalize t) entries used
      let res := linkLoop rest entries scan.2 (idx + 1)
      let k : Option LeafK :=
        match scan.1 with
        | [] => none
        | [m] => some (.single m)
        | ms => some (.array ms)
      (k :: res.1, scan.1.map (fun m => (mcrKey m, idx)) ++ res.2)

/-- Embeds `_link_structure_to_content` over leaf texts and the
per-page MCID tables (early empty-table return included). -/
def linkStructureToContent (leafTexts : List String)
    (pageMaps : List (List (Nat × String))) :
    List (Option LeafK) × List ((Nat × Nat) × Nat) :=
  let entries := allMcidsOf pageMaps
  if entries.isEmpty then (leafTexts.map (fun _ => none), [])
  else linkLoop leafTexts entries [] 0

/-- Spec: an MCID is eligible for a leaf exactly when it is not already
claimed, has non-empty normalised text, and scores strictly above 0.3
against the leaf's normalised text. -/
def claimEligible (nodeNorm : String) (used : List (Nat × Nat))
    (e : McidEntry) : Bool :=
  decide (mcidKey e ∉ used) && decide (pyNormalize e.text ≠ "") &&
    decide ((3 : ℚ) / 10 < matchScore nodeNorm (pyNormalize e.text))

/-- Spec: the MCRs a leaf attaches — exactly the eligible MCIDs, in
page-then-position scan order. -/
def specMatched (nodeNorm : String) (used : List (Nat × Nat))
    (entries : List McidEntry) : List MCR :=
  (entries.filter (claimEligible nodeNorm used)).map (fun e => ⟨e.page, e.mcid⟩)

/-- Spec: the per-leaf matched MCR lists, processing leaves in tree
order and accumulating the claimed set (leaves with empty text or empty
normalised text match nothing). -/
def specLeafMatches : List String → List McidEntry → List (Nat × Nat) →
    List (List MCR)
  | [], _, _ => []
  | t :: rest, entries, used =>
    if t = "" ∨ pyNormalize t = "" then [] :: specLeafMatches rest entries used
    else
      let ms := specMatched (pyNormalize t) used entries
      ms :: specLeafMatches rest entries (used ++ ms.map mcrKey)

/-- Spec: the `/K` shape dictated by the number of matched MCIDs. -/
def kOfMatches (ms : List MCR) : Option LeafK :=
  match ms with
  | [] => none
  | [m] => some (.single m)
  | ms => some (.array ms)

theorem scanLeaf_eq_specMatched (nodeNorm : String) (entries : List McidEntry) :
    ∀ used, (entries.map mcidKey).Nodup →
      scanLeaf nodeNorm entries used =
        (specMatched nodeNorm used entries,
          used ++ (specMatched nodeNorm used entries).map mcrKey) := by
  induction entries with
  | nil => intro used _; simp [scanLeaf, specMatched]
  | cons e rest ih =>
    intro used hnd
    have hnd' : (rest.map mcidKey).Nodup := (List.nodup_cons.mp hnd).2
    have hkey : mcidKey e ∉ rest.map mcidKey := (List.nodup_cons.mp hnd).1
    by_cases hused : mcidKey e ∈ used
    · rw [scanLeaf, if_pos hused, ih used hnd']
      have : claimEligible nodeNorm used e = false := by
        simp [claimEligible, hused]
      simp [specMatched, List.filter_cons, this]
    · by_cases hemp : pyNormalize e.text = ""
      · rw [scanLeaf, if_neg hused, if_pos hemp, ih used hnd']
        have : claimEligible nodeNorm used e = false := by
          simp [claimEligible, hemp]
        simp [specMatched, List.filter_cons, this]
      · by_cases hscore : scoreGtThreshold nodeNorm (pyNormalize e.text) = true
        · rw [scanLeaf, if_neg hused, if_neg hemp, if_pos hscore,
            ih (used ++ [mcidKey e]) hnd']
          have helig : claimEligible nodeNorm used e = true := by
            simp [claimEligible, hused, hemp,
              ← score_gt_threshold_iff, hscore]
          have hcongr : rest.filter (claimEligible nodeNorm (used ++ [mcidKey e])) =
              rest.filter (claimEligible nodeNorm used) := by
            apply List.filter_congr
            intro x hx
            have hxk : mcidKey x ≠ mcidKey e := by
              intro hcontra
              exact hkey (hcontra ▸ List.mem_map_of_mem mcidKey hx)
            simp [claimEligible, hxk]
          simp only [specMatched, List.filter_cons, helig, if_pos, hcongr]
          simp [mcrKey, mcidKey]
        · rw [scanLeaf, if_neg hused, if_neg hemp, if_neg hscore, ih used hnd']
          have hs2 : ¬ ((3 : ℚ) / 10 < matchScore nodeNorm (pyNormalize e.text)) := by
            rw [← score_gt_threshold_iff]; exact hscore
          have : claimEligible nodeNorm used e = false := by
            simp [claimEligible, hs2]
          simp [specMatched, List.filter_cons, this]

theorem linkLoop_eq_spec (leafTexts : List String) (entries : List McidEntry)
    (hnd : (entries.map mcidKey).Nodup) :
    ∀ used idx,
      linkLoop leafTexts entries used idx =
        ((specLeafMatches leafTexts entries used).map kOfMatches,
          (((specLeafMatches leafTexts entries used).enumFrom idx).map
            (fun p => p.2.map (fun m => (mcrKey m, p.1)))).flatten) := by
  induction leafTexts with
  | nil => intro used idx; simp [linkLoop, specLeafMatches]
  | cons t rest ih =>
    intro used idx
    by_cases ht : t = ""
    · rw [linkLoop, if_pos ht, ih used (idx + 1)]
      simp [specLeafMatches, ht, kOfMatches, List.enumFrom]
    · by_cases htn : pyNormalize t = ""
      · rw [linkLoop, if_neg ht, if_pos htn, ih used (idx + 1)]
        simp [specLeafMatches, ht, htn, kOfMatches, List.enumFrom]
      · rw [linkLoop, if_neg ht, if_neg htn]
        simp only [scanLeaf_eq_specMatched (pyNormalize t) entries used hnd]
        rw [ih (used ++ (specMatched (pyNormalize t) used entries).map mcrKey)
          (idx + 1)]
        have hspec : specLeafMatches (t :: rest) entries used =
            specMatched (pyNormalize t) used entries ::
              specLeafMatches rest entries
                (used ++ (specMatched (pyNormalize t) used entries).map mcrKey) := by
          rw [specLeafMatches, if_neg (by simp [ht, htn])]
        rw [hspec]
        simp [kOfMatches, List.enumFrom]

theorem specLeafMatches_of_no_entries (ts : List String) :
    ∀ used, specLeafMatches ts [] used = ts.map (fun _ => []) := by
  induction ts with
  | nil => intro used; simp [specLeafMatches]
  | cons t rest ih =>
    intro used
    rw [specLeafMatches]
    split <;> simp [specMatched, ih]

theorem flatten_nil_of_all_nil {α : Type} (L : List (List α))
    (h : ∀ x ∈ L, x = []) : L.flatten = [] := by
  induction L with
  | nil => rfl
  | cons x rest ih =>
    rw [List.flatten_cons, h x (List.mem_cons_self ..),
      ih (fun y hy => h y (List.mem_cons_of_mem _ hy))]
    rfl

theorem ownership_keys_eq (specs : List (List MCR)) :
    ∀ idx,
      (((specs.enumFrom idx).map
        (fun p => p.2.map (fun m => (mcrKey m, p.1)))).flatten).map Prod.fst =
      (specs.map (fun ms => ms.map mcrKey)).flatten := by
  induction specs with
  | nil => intro idx; rfl
  | cons ms rest ih =>
    intro idx
    simp only [List.enumFrom, List.map_cons, List.flatten_cons, List.map_append,
      List.map_map, ih]
    rfl

theorem specLeafMatches_keys_nodup (ts : List String) (entries : List McidEntry)
    (hnd : (entries.map mcidKey).Nodup) :
    ∀ used,
      (((specLeafMatches ts entries used).map (fun ms => ms.map mcrKey)).flatten).Nodup ∧
      ∀ k ∈ ((specLeafMatches ts entries used).map (fun ms => ms.map mcrKey)).flatten,
        k ∉ used := by
  induction ts with
  | nil => intro used; simp [specLeafMatches]
  | cons t rest ih =>
    intro used
    rw [specLeafMatches]
    split
    · simpa using ih used
    · set ms := specMatched (pyNormalize t) used entries with hms
      have hkeys : ms.map mcrKey = (entries.filter
          (claimEligible (pyNormalize t) used)).map mcidKey := by
        rw [hms, specMatched, List.map_map]
        rfl
      have hmsnd : (ms.map mcrKey).Nodup := by
        rw [hkeys]
        exact hnd.sublist ((List.filter_sublist entries).map mcidKey)
      have hmsused : ∀ k ∈ ms.map mcrKey, k ∉ used := by
        intro k hk
        rw [hkeys, List.mem_map] at hk
        obtain ⟨e, he, hke⟩ := hk
        have := (List.mem_filter.mp he).2
        simp only [claimEligible, Bool.and_eq_true, decide_eq_true_eq] at this
        exact hke ▸ this.1.1
      obtain ⟨hrnd, hrused⟩ := ih (used ++ ms.map mcrKey)
      rw [List.map_cons, List.flatten_cons, List.nodup_append]
      refine ⟨⟨hmsnd, hrnd, ?_⟩, ?_⟩
      · intro k hk hk2
        exact hrused k hk2 (List.mem_append_right _ hk)
      · intro k hk
        rcases List.mem_append.mp hk with hk1 | hk2
        · exact hmsused k hk1
        · intro hku
          exact hrused k hk2 (List.mem_append_left _ hku)

/-- Claim C4: processing leaves with non-empty normalised text in tree
order and scanning all MCIDs in page-then-position order, the linker
attaches MCRs for exactly the MCIDs that are not already claimed, have
non-empty normalised text, and score strictly above 0.3; the ownership
list has at most one owner per `(page, mcid)`; a leaf's `/K` is a
single MCR for one match, an array (in scan order) for several, and is
left unset for none. -/
theorem linker_claims_exactly_eligible (leafTexts : List String)
    (pageMaps : List (List (Nat × String)))
    (hnd : ((allMcidsOf pageMaps).map mcidKey).Nodup) :
    (linkStructureToContent leafTexts pageMaps).1 =
      (specLeafMatches leafTexts (allMcidsOf pageMaps) []).map kOfMatches ∧
    (linkStructureToContent leafTexts pageMaps).2 =
      (((specLeafMatches leafTexts (allMcidsOf pageMaps) []).enum).map
        (fun p => p.2.map (fun m => (mcrKey m, p.1)))).flatten ∧
    ((linkStructureToContent leafTexts pageMaps).2.map Prod.fst).Nodup := by
  unfold linkStructureToContent
  by_cases hemp : (allMcidsOf pageMaps).isEmpty
  · have hnil : allMcidsOf pageMaps = [] := List.isEmpty_iff.mp hemp
    rw [hnil]
    simp only [List.isEmpty_nil, if_pos]
    rw [specLeafMatches_of_no_entries leafTexts []]
    refine ⟨by simp [kOfMatches], ?_, by simp⟩
    have hflat : ((List.enumFrom 0 (leafTexts.map (fun _ => ([] : List MCR)))).map
        (fun p => p.2.map (fun m => (mcrKey m, p.1)))).flatten =
          ([] : List ((Nat × Nat) × Nat)) := by
      apply flatten_nil_of_all_nil
      intro x hx
      rw [List.mem_map] at hx
      obtain ⟨p, hp, hpx⟩ := hx
      have hsnd : p.2 ∈ leafTexts.map (fun _ => ([] : List MCR)) := by
        have hmap : (List.enumFrom 0 (leafTexts.map (fun _ => ([] : List MCR)))).map
            Prod.snd = leafTexts.map (fun _ => ([] : List MCR)) :=
          List.enumFrom_map_snd 0 _
        exact hmap ▸ List.mem_map_of_mem Prod.snd hp
      rw [List.mem_map] at hsnd
      obtain ⟨_, _, hnil2⟩ := hsnd
      rw [← hpx, ← hnil2]
      rfl
    exact hflat.symm
  · rw [if_neg hemp, linkLoop_eq_spec leafTexts (allMcidsOf pageMaps) hnd []]
    refine ⟨rfl, rfl, ?_⟩
    show ((((specLeafMatches leafTexts (allMcidsOf pageMaps) []).enumFrom 0).map
        (fun p => p.2.map (fun m => (mcrKey m, p.1)))).flatten.map Prod.fst).Nodup
    rw [ownership_keys_eq]
    exact (specLeafMatches_keys_nodup leafTexts (allMcidsOf pageMaps) hnd []).1

/-- Witness for C4 with one paragraph leaf and a two-MCID page. -/
theorem linker_claims_exactly_eligible_witness :
    (linkStructureToContent (["hello world"])
        ([[(0, "Hello"), (1, "zzz")]])).1 =
      (specLeafMatches (["hello world"])
        (allMcidsOf ([[(0, "Hello"), (1, "zzz")]])) []).map kOfMatches :=
  (linker_claims_exactly_eligible (["hello world"])
    ([[(0, "Hello"), (1, "zzz")]]) (by decide)).1

/-! ## The semantic document tree and heading normalisation (claim C6)

`models.Tag` and `models.DocumentNode`, plus the heading machinery of
`latex_parser.py`.
-/

/-- The `Tag` enum of `models.py`. -/
inductive Tag where
  | DOCUMENT | SECTION | HEADING1 | HEADING2 | HEADING3 | HEADING4
  | PARAGRAPH | LIST | LIST_ITEM | FORMULA | CODE | FIGURE | LINK
deriving DecidableEq, Repr

/-- A node of the semantic document tree (`models.DocumentNode`). -/
inductive DocumentNode where
  | node (tag : Tag) (text : String) (children : List DocumentNode)

def DocumentNode.tag : DocumentNode → Tag
  | .node t _ _ => t

def DocumentNode.text : DocumentNode → String
  | .node _ x _ => x

def DocumentNode.children : DocumentNode → List DocumentNode
  | .node _ _ cs => cs

/-- The heading level (1–4) of a heading tag, `none` otherwise. -/
def headingLevel? : Tag → Option Nat
  | .HEADING1 => some 1
  | .HEADING2 => some 2
  | .HEADING3 => some 3
  | .HEADING4 => some 4
  | _ => none

/-- `_HEADING_TAGS_ORDERED[n-1]`: the heading tag of level `n` (only
levels 1–4 occur; the fallthrough is never reached on real input). -/
def tagOfLevel : Nat → Tag
  | 1 => .HEADING1
  | 2 => .HEADING2
  | 3 => .HEADING3
  | _ => .HEADING4

/-- Python `not s.strip()`: every character is whitespace. -/
def stripIsEmpty (s : String) : Bool := s.data.all Char.isWhitespace

/-- The filter condition of `_prune_empty_headings`: a `Section` whose
sole child is a heading with empty (whitespace-only) text. -/
def isEmptyHeadingSection (c : DocumentNode) : Bool :=
  match c with
  | .node .SECTION _ [.node ht htext _] =>
      (headingLevel? ht).isSome && stripIsEmpty htext
  | _ => false

mutual

/-- Embeds `_prune_empty_headings`: drop empty-heading sections among
the children, then recurse into the kept children. -/
def pruneEmptyHeadings : DocumentNode → DocumentNode
  | .node t x cs => .node t x (pruneChildren cs)

def pruneChildren : List DocumentNode → List DocumentNode
  | [] => []
  | c :: cs =>
    if isEmptyHeadingSection c then pruneChildren cs
    else pruneEmptyHeadings c :: pruneChildren cs

end

mutual

/-- Embeds `_collect_heading_tags` (as levels, in preorder). -/
def collectLevels : DocumentNode → List Nat
  | .node t _ cs => (headingLevel? t).toList ++ collectLevelsList cs

def collectLevelsList : List DocumentNode → List Nat
  | [] => []
  | c :: cs => collectLevels c ++ collectLevelsList cs

end

mutual

/-- The headings of the tree in document (preorder) order, as
`(level, text)` pairs. -/
def headingSeq : DocumentNode → List (Nat × String)
  | .node t x cs =>
    (match headingLevel? t with
     | some l => [(l, x)]
     | none => []) ++ headingSeqList cs

def headingSeqList : List DocumentNode → List (Nat × String)
  | [] => []
  | c :: cs => headingSeq c ++ headingSeqList cs

end

/-- The remap `{sorted_used[i] ↦ H(i+1)}` of `_normalize_headings`, on
levels: a used level maps to its rank (from 1) in the sorted used list,
any other level is left alone. -/
def remapLevel (su : List Nat) (l : Nat) : Nat :=
  if l ∈ su then List.indexOf l su + 1 else l

/-- The remap on tags, exactly as `_apply_heading_remap` looks tags up
in the remap dictionary. -/
def remapTag (su : List Nat) (t : Tag) : Tag :=
  match headingLevel? t with
  | some l => if l ∈ su then tagOfLevel (List.indexOf l su + 1) else t
  | none => t

mutual

/-- Embeds `_apply_heading_remap`. -/
def applyRemapTree (su : List Nat) : DocumentNode → DocumentNode
  | .node t x cs => .node (remapTag su t) x (applyRemapList su cs)

def applyRemapList (su : List Nat) : List DocumentNode → List DocumentNode
  | [] => []
  | c :: cs => applyRemapTree su c :: applyRemapList su cs

end

/-- Embeds `_normalize_headings`: prune empty headings, collect the set
of used levels, sort it ascending, and remap onto the compact prefix —
applied only when some level actually changes. -/
def normalizeHeadings (root : DocumentNode) : DocumentNode :=
  let p := pruneEmptyHeadings root
  let used := (collectLevels p).dedup
  if used.isEmpty then p
  else
    let su := List.insertionSort (· ≤ ·) used
    if su.enum.any (fun iv => decide (iv.2 ≠ iv.1 + 1)) then applyRemapTree su p
    else p

/-- The set of heading levels present in a tree. -/
def levelsFinset (t : DocumentNode) : Finset Nat := (collectLevels t).toFinset

mutual

theorem collectLevels_eq_seq_fst (t : DocumentNode) :
    collectLevels t = (headingSeq t).map Prod.fst := by
  cases t with
  | node tg x cs =>
    rw [collectLevels, headingSeq, List.map_append,
      collectLevelsList_eq_seq_fst cs]
    cases htg : headingLevel? tg <;> simp [Option.toList]

theorem collectLevelsList_eq_seq_fst (cs : List DocumentNode) :
    collectLevelsList cs = (headingSeqList cs).map Prod.fst := by
  cases cs with
  | nil => rfl
  | cons c rest =>
    rw [collectLevelsList, headingSeqList, List.map_append,
      collectLevels_eq_seq_fst c, collectLevelsList_eq_seq_fst rest]

end

theorem headingLevel?_bounds {t : Tag} {l : Nat} (h : headingLevel? t = some l) :
    1 ≤ l ∧ l ≤ 4 := by
  cases t <;> simp [headingLevel?] at h <;> omega

mutual

theorem collectLevels_bounds (t : DocumentNode) :
    ∀ l ∈ collectLevels t, 1 ≤ l ∧ l ≤ 4 := by
  cases t with
  | node tg x cs =>
    intro l hl
    rw [collectLevels] at hl
    rcases List.mem_append.mp hl with h1 | h2
    · cases htg : headingLevel? tg with
      | none => rw [htg] at h1; simp [Option.toList] at h1
      | some v =>
        rw [htg] at h1
        simp [Option.toList] at h1
        exact h1 ▸ headingLevel?_bounds htg
    · exact collectLevelsList_bounds cs l h2

theorem collectLevelsList_bounds (cs : List DocumentNode) :
    ∀ l ∈ collectLevelsList cs, 1 ≤ l ∧ l ≤ 4 := by
  cases cs with
  | nil => intro l hl; simp [collectLevelsList] at hl
  | cons c rest =>
    intro l hl
    rw [collectLevelsList] at hl
    rcases List.mem_append.mp hl with h1 | h2
    · exact collectLevels_bounds c l h1
    · exact collectLevelsList_bounds rest l h2

end

theorem headingLevel?_tagOfLevel {n : Nat} (h1 : 1 ≤ n) (h2 : n ≤ 4) :
    headingLevel? (tagOfLevel n) = some n := by
  match n, h1, h2 with
  | 1, _, _ => rfl
  | 2, _, _ => rfl
  | 3, _, _ => rfl
  | 4, _, _ => rfl

theorem remapTag_heading {su : List Nat} {t : Tag} {l : Nat}
    (hl : headingLevel? t = some l) (hle : su.length ≤ 4) :
    headingLevel? (remapTag su t) = some (remapLevel su l) := by
  simp only [remapTag, hl, remapLevel]
  by_cases hmem : l ∈ su
  · rw [if_pos hmem, if_pos hmem]
    have hidx : List.indexOf l su < su.length := List.indexOf_lt_length.mpr hmem
    exact headingLevel?_tagOfLevel (by omega) (by omega)
  · rw [if_neg hmem, if_neg hmem, hl]

theorem remapTag_nonheading {su : List Nat} {t : Tag}
    (hl : headingLevel? t = none) : remapTag su t = t := by
  simp only [remapTag, hl]

mutual

theorem headingSeq_applyRemap (su : List Nat) (hle : su.length ≤ 4)
    (t : DocumentNode) :
    headingSeq (applyRemapTree su t) =
      (headingSeq t).map (fun q => (remapLevel su q.1, q.2)) := by
  cases t with
  | node tg x cs =>
    rw [applyRemapTree, headingSeq, headingSeq, List.map_append,
      headingSeqList_applyRemap su hle cs]
    cases htg : headingLevel? tg with
    | none => rw [remapTag_nonheading htg, htg]; simp
    | some l => rw [remapTag_heading htg hle]; simp

theorem headingSeqList_applyRemap (su : List Nat) (hle : su.length ≤ 4)
    (cs : List DocumentNode) :
    headingSeqList (applyRemapList su cs) =
      (headingSeqList cs).map (fun q => (remapLevel su q.1, q.2)) := by
  cases cs with
  | nil => rfl
  | cons c rest =>
    rw [applyRemapList, headingSeqList, headingSeqList, List.map_append,
      headingSeq_applyRemap su hle c, headingSeqList_applyRemap su hle rest]

end

theorem indexOf_strictMonoOn {su : List Nat} (hs : su.Sorted (· ≤ ·))
    (_hn : su.Nodup) {l1 l2 : Nat} (h1 : l1 ∈ su) (h2 : l2 ∈ su) (hlt : l1 < l2) :
    List.indexOf l1 su < List.indexOf l2 su := by
  have hi1 : List.indexOf l1 su < su.length := List.indexOf_lt_length.mpr h1
  have hi2 : List.indexOf l2 su < su.length := List.indexOf_lt_length.mpr h2
  by_contra hcon
  push_neg at hcon
  rcases Nat.lt_or_ge (List.indexOf l2 su) (List.indexOf l1 su) with hc | hc
  · have := (List.pairwise_iff_getElem.mp hs) _ _ hi2 hi1 hc
    rw [List.getElem_indexOf hi1, List.getElem_indexOf hi2] at this
    omega
  · have heq : List.indexOf l1 su = List.indexOf l2 su := by omega
    have : l1 = l2 := (List.indexOf_inj h1 h2).mp heq
    omega

theorem map_remapLevel_sorted {su : List Nat} (hn : su.Nodup) :
    su.map (remapLevel su) = List.range' 1 su.length := by
  apply List.ext_getElem (by simp)
  intro i h1 h2
  have h3 : i < su.length := by simpa using h1
  rw [List.getElem_map, List.getElem_range'_1]
  have hmem : su[i] ∈ su := List.getElem_mem _
  rw [remapLevel, if_pos hmem, List.indexOf_getElem hn]
  omega

theorem remapLevel_self_of_compact {su : List Nat} (_hn : su.Nodup)
    (hcompact : ∀ (i : Nat) (h : i < su.length), su[i] = i + 1)
    {l : Nat} (hl : l ∈ su) : remapLevel su l = l := by
  have hidx : List.indexOf l su < su.length := List.indexOf_lt_length.mpr hl
  have := List.getElem_indexOf hidx
  have := hcompact _ hidx
  rw [remapLevel, if_pos hl]
  omega

theorem map_eq_self_of_all {α : Type} (l : List α) (g : α → α)
    (h : ∀ x ∈ l, g x = x) : l.map g = l := by
  induction l with
  | nil => rfl
  | cons x rest ih =>
    rw [List.map_cons, h x (List.mem_cons_self ..),
      ih (fun y hy => h y (List.mem_cons_of_mem _ hy))]

theorem range'_one_toFinset (k : Nat) :
    (List.range' 1 k).toFinset = Finset.Icc 1 k := by
  ext x
  rw [List.mem_toFinset, List.mem_range'_1, Finset.mem_Icc]
  omega

/-- Claim C6: heading normalisation first prunes empty-heading
sections, then remaps the used heading levels onto a compact prefix:
the levels present afterwards are exactly `{1..k}` for some `k`, via a
level map that is strictly monotone on the used levels, and the heading
sequence (document order and texts) of the pruned tree is preserved up
to that level map. -/
theorem heading_normalisation_compact (root : DocumentNode) :
    ∃ (k : Nat) (f : Nat → Nat),
      levelsFinset (normalizeHeadings root) = Finset.Icc 1 k ∧
      (∀ l1 l2, l1 ∈ levelsFinset (pruneEmptyHeadings root) →
        l2 ∈ levelsFinset (pruneEmptyHeadings root) → l1 < l2 → f l1 < f l2) ∧
      headingSeq (normalizeHeadings root) =
        (headingSeq (pruneEmptyHeadings root)).map (fun q => (f q.1, q.2)) := by
  set p := pruneEmptyHeadings root with hp
  set used := (collectLevels p).dedup with hused
  set su := List.insertionSort (· ≤ ·) used with hsu
  have hperm : su.Perm used := List.perm_insertionSort _ _
  have hnodup : su.Nodup := hperm.nodup_iff.mpr (List.nodup_dedup _)
  have hsorted : su.Sorted (· ≤ ·) := List.sorted_insertionSort _ _
  have hmem_su : ∀ l, l ∈ su ↔ l ∈ collectLevels p := by
    intro l
    rw [hperm.mem_iff, hused, List.mem_dedup]
  have hbounds : ∀ l ∈ su, 1 ≤ l ∧ l ≤ 4 := by
    intro l hl
    exact collectLevels_bounds p l ((hmem_su l).mp hl)
  have hle : su.length ≤ 4 := by
    have hcard : su.toFinset.card = su.length := List.toFinset_card_of_nodup hnodup
    have hsub : su.toFinset ⊆ Finset.Icc 1 4 := by
      intro x hx
      rw [List.mem_toFinset] at hx
      rw [Finset.mem_Icc]
      exact hbounds x hx
    have := Finset.card_le_card hsub
    simp [Nat.card_Icc] at this
    omega
  have hsu_toFinset : su.toFinset = (collectLevels p).toFinset := by
    apply List.toFinset.ext
    exact hmem_su
  refine ⟨su.length, remapLevel su, ?_, ?_, ?_⟩
  · -- levels after normalisation are exactly {1..k}
    rw [normalizeHeadings]
    simp only [← hp, ← hused, ← hsu]
    by_cases hempty : used.isEmpty
    · rw [if_pos hempty]
      have husednil : used = [] := List.isEmpty_iff.mp hempty
      have hcoll : collectLevels p = [] := by
        rw [hused] at husednil
        exact (List.dedup_eq_nil _).mp husednil
      have hsunil : su = [] := by
        rw [hsu, husednil]
        rfl
      rw [levelsFinset, hcoll, hsunil]
      simp
    · rw [if_neg hempty]
      by_cases hchange : su.enum.any (fun iv => decide (iv.2 ≠ iv.1 + 1))
      · rw [if_pos hchange]
        have hseq := headingSeq_applyRemap su hle p
        have hcoll : collectLevels (applyRemapTree su p) =
            (collectLevels p).map (remapLevel su) := by
          rw [collectLevels_eq_seq_fst, hseq, collectLevels_eq_seq_fst,
            List.map_map, List.map_map]
          rfl
        rw [levelsFinset, hcoll]
        apply Finset.ext
        intro x
        rw [List.mem_toFinset, List.mem_map]
        constructor
        · rintro ⟨a, ha, hax⟩
          have hasu : a ∈ su := (hmem_su a).mpr ha
          have : x ∈ su.map (remapLevel su) := hax ▸ List.mem_map_of_mem _ hasu
          rw [map_remapLevel_sorted hnodup, List.mem_range'_1] at this
          rw [Finset.mem_Icc]
          omega
        · intro hx
          rw [Finset.mem_Icc] at hx
          have : x ∈ su.map (remapLevel su) := by
            rw [map_remapLevel_sorted hnodup, List.mem_range'_1]
            omega
          rw [List.mem_map] at this
          obtain ⟨a, ha, hax⟩ := this
          exact ⟨a, (hmem_su a).mp ha, hax⟩
      · rw [if_neg hchange]
        have hcompact : ∀ (i : Nat) (h : i < su.length), su[i] = i + 1 := by
          intro i h
          rw [List.any_eq_true] at hchange
          push_neg at hchange
          have hlen : i < su.enum.length := by simpa using h
          have hmem : (i, su[i]) ∈ su.enum := by
            have hget : su.enum[i] = (i, su[i]) := List.getElem_enum _ _ hlen
            exact hget ▸ List.getElem_mem hlen
          have := hchange (i, su[i]) hmem
          simpa using this
        have hsueq : su = List.range' 1 su.length := by
          apply List.ext_getElem (by simp)
          intro i h1 h2
          rw [List.getElem_range'_1, hcompact i h1]
          omega
        rw [levelsFinset, ← hsu_toFinset]
        conv_lhs => rw [hsueq]
        exact range'_one_toFinset su.length
  · -- strict monotonicity on the used levels
    intro l1 l2 h1 h2 hlt
    rw [levelsFinset, List.mem_toFinset, ← hmem_su] at h1 h2
    rw [remapLevel, if_pos h1, remapLevel, if_pos h2]
    have := indexOf_strictMonoOn hsorted hnodup h1 h2 hlt
    omega
  · -- the heading sequence is preserved up to the level map
    rw [normalizeHeadings]
    simp only [← hp, ← hused, ← hsu]
    by_cases hempty : used.isEmpty
    · rw [if_pos hempty]
      have husednil : used = [] := List.isEmpty_iff.mp hempty
      have hcoll : collectLevels p = [] := by
        rw [hused] at husednil
        exact (List.dedup_eq_nil _).mp husednil
      have hseqnil : headingSeq p = [] := by
        have := collectLevels_eq_seq_fst p
        rw [hcoll] at this
        exact List.map_eq_nil_iff.mp this.symm
      rw [hseqnil]
      rfl
    · rw [if_neg hempty]
      by_cases hchange : su.enum.any (fun iv => decide (iv.2 ≠ iv.1 + 1))
      · rw [if_pos hchange]
        exact headingSeq_applyRemap su hle p
      · rw [if_neg hchange]
        have hcompact : ∀ (i : Nat) (h : i < su.length), su[i] = i + 1 := by
          intro i h
          rw [List.any_eq_true] at hchange
          push_neg at hchange
          have hlen : i < su.enum.length := by simpa using h
          have hmem : (i, su[i]) ∈ su.enum := by
            have hget : su.enum[i] = (i, su[i]) := List.getElem_enum _ _ hlen
            exact hget ▸ List.getElem_mem hlen
          have := hchange (i, su[i]) hmem
          simpa using this
        symm
        apply map_eq_self_of_all
        intro q hq
        have hq1 : q.1 ∈ collectLevels p := by
          rw [collectLevels_eq_seq_fst]
          exact List.mem_map_of_mem Prod.fst hq
        have : remapLevel su q.1 = q.1 :=
          remapLevel_self_of_compact hnodup hcompact ((hmem_su q.1).mpr hq1)
        rw [this]

/-- Witness for C6 at a document that uses only levels 2 and 4. -/
theorem heading_normalisation_compact_witness :
    ∃ (k : Nat) (f : Nat → Nat),
      levelsFinset (normalizeHeadings (.node .DOCUMENT ""
        [.node .SECTION "" [.node .HEADING2 ("A") []],
         .node .SECTION "" [.node .HEADING4 ("B") []]])) = Finset.Icc 1 k ∧
      (∀ l1 l2, l1 ∈ levelsFinset (pruneEmptyHeadings (.node .DOCUMENT ""
          [.node .SECTION "" [.node .HEADING2 ("A") []],
           .node .SECTION "" [.node .HEADING4 ("B") []]])) →
        l2 ∈ levelsFinset (pruneEmptyHeadings (.node .DOCUMENT ""
          [.node .SECTION "" [.node .HEADING2 ("A") []],
           .node .SECTION "" [.node .HEADING4 ("B") []]])) → l1 < l2 → f l1 < f l2) ∧
      headingSeq (normalizeHeadings (.node .DOCUMENT ""
        [.node .SECTION "" [.node .HEADING2 ("A") []],
         .node .SECTION "" [.node .HEADING4 ("B") []]])) =
        (headingSeq (pruneEmptyHeadings (.node .DOCUMENT ""
          [.node .SECTION "" [.node .HEADING2 ("A") []],
           .node .SECTION "" [.node .HEADING4 ("B") []]]))).map
          (fun q => (f q.1, q.2)) :=
  heading_normalisation_compact (.node .DOCUMENT ""
    [.node .SECTION "" [.node .HEADING2 ("A") []],
     .node .SECTION "" [.node .HEADING4 ("B") []]])

/-! ## The structure-tree builder (claims C7, C9)

`_build_element` creates one StructElem dictionary per semantic node.
Elements live in an arena: `store : List ElemRec`, the index is the
element's identity, index 0 is the `/StructTreeRoot` dictionary.  The
constant `/Type /StructElem` entry is implicit; `/S`, `/P`, `/Alt`,
`/ActualText` and `/K` are the modelled fields.
-/

/-- `_PDF_TAG`: structure-type name per tag (`"Span"` fallback is
unreachable because the dictionary is total). -/
def pdfTagName : Tag → String
  | .DOCUMENT => "Document"
  | .SECTION => "Sect"
  | .HEADING1 => "H1"
  | .HEADING2 => "H2"
  | .HEADING3 => "H3"
  | .HEADING4 => "H4"
  | .PARAGRAPH => "P"
  | .LIST => "L"
  | .LIST_ITEM => "LI"
  | .FORMULA => "Formula"
  | .CODE => "Code"
  | .FIGURE => "Figure"
  | .LINK => "Link"

/-- `_ALT_TAGS`: tags whose text becomes `/Alt` instead of `/ActualText`. -/
def altTags : List Tag := [.FORMULA, .CODE, .FIGURE]

/-- One entry of a StructElem's `/K`: an indirect reference to a child
element, an MCR, or an OBJR (identified by page index and the
annotation's position on that page). -/
inductive KItem where
  | elemRef (id : Nat)
  | mcr (page mcid : Nat)
  | objr (page pos : Nat)
deriving DecidableEq, Repr

/-- The `/K` slot of a StructElem: absent, a single object, or an array. -/
inductive KVal where
  | unset
  | one (k : KItem)
  | many (ks : List KItem)
deriving DecidableEq, Repr

/-- A structure element (or the structure tree root, at index 0). -/
structure ElemRec where
  stype : String
  parent : Nat
  alt : Option String
  actualText : Option String
  kval : KVal
deriving DecidableEq, Repr

/-- The `/StructTreeRoot` dictionary, at arena index 0. -/
def structRootRec : ElemRec := ⟨"StructTreeRoot", 0, none, none, .unset⟩

/-- Overwrite the `/K` slot of the element at index `id`. -/
def setKval (st : List ElemRec) (id : Nat) (k : KVal) : List ElemRec :=
  match st[id]? with
  | some r => st.set id { r with kval := k }
  | none => st

/-- The `/K` slot of the element at index `i` (`unset` when absent). -/
def kvalAt (st : List ElemRec) (i : Nat) : KVal :=
  match st[i]? with
  | some r => r.kval
  | none => .unset

/-- The fresh StructElem dictionary for a node: `/S`, `/P`, and the
node text as `/Alt` for `_ALT_TAGS` or `/ActualText` otherwise. -/
def mkElemRec (tg : Tag) (x : String) (parentId : Nat) : ElemRec :=
  { stype := pdfTagName tg
    parent := parentId
    alt := if x ≠ "" ∧ tg ∈ altTags then some x else none
    actualText := if x ≠ "" ∧ tg ∉ altTags then some x else none
    kval := .unset }

mutual

/-- Embeds `_build_element`: create the element with its `/P` pointer
and text attribute, then recurse into children (wrapping a list-item's
children in an `/LBody`); childless nodes are recorded as leaves. -/
def buildElement (node : DocumentNode) (parentId : Nat) (st : List ElemRec) :
    List ElemRec × Nat × List (Nat × DocumentNode) :=
  match node with
  | .node tg x cs =>
    let id := st.length
    let rec0 : ElemRec := mkElemRec tg x parentId
    let st1 := st ++ [rec0]
    match cs with
    | [] => (st1, id, [(id, node)])
    | c :: cs2 =>
      if tg = .LIST_ITEM then
        let lbodyId := st1.length
        let lbody : ElemRec := ⟨"LBody", id, none, none, .unset⟩
        let st2 := st1 ++ [lbody]
        let res := buildChildren (c :: cs2) lbodyId st2
        let st3 := setKval res.1 lbodyId (.many (res.2.1.map KItem.elemRef))
        let st4 := setKval st3 id (.many [KItem.elemRef lbodyId])
        (st4, id, res.2.2)
      else
        let res := buildChildren (c :: cs2) id st1
        let st3 := setKval res.1 id (.many (res.2.1.map KItem.elemRef))
        (st3, id, res.2.2)

def buildChildren (cs : List DocumentNode) (parentId : Nat) (st : List ElemRec) :
    List ElemRec × List Nat × List (Nat × DocumentNode) :=
  match cs with
  | [] => (st, [], [])
  | c :: rest =>
    let r1 := buildElement c parentId st
    let r2 := buildChildren rest parentId r1.1
    (r2.1, r1.2.1 :: r2.2.1, r1.2.2 ++ r2.2.2)

end

/-- The structure-tree construction in `tag`: build the document
element under the root and install it as the root's `/K`. -/
def buildStructTree (tree : DocumentNode) :
    List ElemRec × Nat × List (Nat × DocumentNode) :=
  let res := buildElement tree 0 [structRootRec]
  (setKval res.1 0 (.one (KItem.elemRef res.2.1)), res.2.1, res.2.2)

/-- The element children referenced from a `/K` slot. -/
def kidsOf (k : KVal) : List Nat :=
  match k with
  | .unset => []
  | .one (.elemRef j) => [j]
  | .one _ => []
  | .many ks => ks.filterMap (fun ki =>
      match ki with
      | .elemRef j => some j
      | _ => none)

/-- Spec (C7): a `/K` that is an array holding exactly one element. -/
def isSingletonElemArray : KVal → Bool
  | .many [.elemRef _] => true
  | _ => false

/-- Parent-pointer consistency: every element reachable as a `/K` child
has its `/P` equal to the containing element's index. -/
def parentOk (st : List ElemRec) : Prop :=
  ∀ i r, st[i]? = some r → ∀ j ∈ kidsOf r.kval,
    ∃ rj, st[j]? = some rj ∧ rj.parent = i

/-! ### Arena lemmas -/

theorem kidsOf_many_map (ids : List Nat) :
    kidsOf (.many (ids.map KItem.elemRef)) = ids := by
  induction ids with
  | nil => rfl
  | cons i rest ih =>
    simp only [kidsOf, List.map_cons, List.filterMap_cons] at ih ⊢
    rw [ih]

theorem setKval_length (st : List ElemRec) (id : Nat) (k : KVal) :
    (setKval st id k).length = st.length := by
  unfold setKval
  cases h : st[id]? <;> simp

theorem setKval_get_ne {st : List ElemRec} {id : Nat} {k : KVal} {j : Nat}
    (h : j ≠ id) : (setKval st id k)[j]? = st[j]? := by
  unfold setKval
  cases hq : st[id]? with
  | none => rfl
  | some r => exact List.getElem?_set_ne (fun he => h he.symm)

theorem setKval_get_self {st : List ElemRec} {id : Nat} {k : KVal} {r : ElemRec}
    (hr : st[id]? = some r) : (setKval st id k)[id]? = some { r with kval := k } := by
  unfold setKval
  rw [hr]
  exact List.getElem?_set_self (List.getElem?_eq_some_iff.mp hr).1

/-- `setKval` never changes `/S`, `/P`, `/Alt` or `/ActualText`. -/
theorem setKval_transfer {st : List ElemRec} {j : Nat} {rj : ElemRec}
    (id : Nat) (k : KVal) (h : st[j]? = some rj) :
    ∃ rj2, (setKval st id k)[j]? = some rj2 ∧ rj2.parent = rj.parent ∧
      rj2.stype = rj.stype ∧ rj2.alt = rj.alt ∧ rj2.actualText = rj.actualText := by
  by_cases hj : j = id
  · subst hj
    rw [setKval_get_self h]
    exact ⟨_, rfl, rfl, rfl, rfl, rfl⟩
  · rw [setKval_get_ne hj]
    exact ⟨rj, h, rfl, rfl, rfl, rfl⟩

/-! ### Unfolding equations for the builder -/

theorem buildElement_nil_eq (tg : Tag) (x : String) (parentId : Nat)
    (st : List ElemRec) :
    buildElement (.node tg x []) parentId st =
      (st ++ [mkElemRec tg x parentId], st.length,
        [(st.length, .node tg x [])]) := rfl

/-- The `LBody` wrapper element for the list item at index `liId`. -/
def lbodyRec (liId : Nat) : ElemRec := ⟨"LBody", liId, none, none, .unset⟩

theorem buildElement_li_eq (x : String) (c : DocumentNode)
    (cs2 : List DocumentNode) (parentId : Nat) (st : List ElemRec) :
    buildElement (.node .LIST_ITEM x (c :: cs2)) parentId st =
      (setKval
        (setKval
          (buildChildren (c :: cs2) (st.length + 1)
            ((st ++ [mkElemRec .LIST_ITEM x parentId]) ++ [lbodyRec st.length])).1
          (st.length + 1)
          (.many ((buildChildren (c :: cs2) (st.length + 1)
            ((st ++ [mkElemRec .LIST_ITEM x parentId]) ++
              [lbodyRec st.length])).2.1.map KItem.elemRef)))
        st.length (.many [KItem.elemRef (st.length + 1)]),
       st.length,
       (buildChildren (c :: cs2) (st.length + 1)
         ((st ++ [mkElemRec .LIST_ITEM x parentId]) ++ [lbodyRec st.length])).2.2) := by
  rw [buildElement]
  simp [lbodyRec]

theorem buildElement_cons_eq (tg : Tag) (x : String) (c : DocumentNode)
    (cs2 : List DocumentNode) (parentId : Nat) (st : List ElemRec)
    (hne : tg ≠ .LIST_ITEM) :
    buildElement (.node tg x (c :: cs2)) parentId st =
      (setKval (buildChildren (c :: cs2) st.length
          (st ++ [mkElemRec tg x parentId])).1 st.length
        (.many ((buildChildren (c :: cs2) st.length
          (st ++ [mkElemRec tg x parentId])).2.1.map KItem.elemRef)),
       st.length,
       (buildChildren (c :: cs2) st.length (st ++ [mkElemRec tg x parentId])).2.2) := by
  rw [buildElement]
  simp [hne]

theorem buildChildren_nil_eq (parentId : Nat) (st : List ElemRec) :
    buildChildren [] parentId st = (st, [], []) := rfl

theorem buildChildren_cons_eq (c : DocumentNode) (rest : List DocumentNode)
    (parentId : Nat) (st : List ElemRec) :
    buildChildren (c :: rest) parentId st =
      ((buildChildren rest parentId (buildElement c parentId st).1).1,
       (buildElement c parentId st).2.1 ::
         (buildChildren rest parentId (buildElement c parentId st).1).2.1,
       (buildElement c parentId st).2.2 ++
         (buildChildren rest parentId (buildElement c parentId st).1).2.2) := by
  rw [buildChildren]

theorem forall₂_exists_left {α β : Type} {R : α → β → Prop} :
    ∀ {as : List α} {bs : List β}, List.Forall₂ R as bs → ∀ b ∈ bs, ∃ a, R a b := by
  intro as bs h
  induction h with
  | nil => intro b hb; simp at hb
  | cons hR hrest ih =>
    intro b hb
    rcases List.mem_cons.mp hb with rfl | hb2
    · exact ⟨_, hR⟩
    · exact ih b hb2

mutual

/-- Invariant of `_build_element`: the new element sits at index
`st.length` with the requested parent and type; entries below
`st.length` are untouched; every new element's `/K` children point back
to it through `/P`. -/
theorem buildElement_inv (node : DocumentNode) (parentId : Nat)
    (st : List ElemRec) :
    st.length + 1 ≤ (buildElement node parentId st).1.length ∧
    (buildElement node parentId st).2.1 = st.length ∧
    (∀ i, i < st.length → (buildElement node parentId st).1[i]? = st[i]?) ∧
    (∃ r, (buildElement node parentId st).1[st.length]? = some r ∧
      r.parent = parentId ∧ r.stype = pdfTagName node.tag) ∧
    (∀ i r, st.length ≤ i → (buildElement node parentId st).1[i]? = some r →
      ∀ j ∈ kidsOf r.kval,
        ∃ rj, (buildElement node parentId st).1[j]? = some rj ∧ rj.parent = i) := by
  cases node with
  | node tg x cs =>
    cases cs with
    | nil =>
      rw [buildElement_nil_eq]
      refine ⟨by simp, rfl, ?_, ?_, ?_⟩
      · intro i hi
        exact List.getElem?_append_left hi
      · exact ⟨mkElemRec tg x parentId, List.getElem?_concat_length st _, rfl, rfl⟩
      · intro i r hge hr j hj
        rcases Nat.eq_or_lt_of_le hge with heq | hgt
        · rw [← heq, List.getElem?_concat_length] at hr
          cases hr
          simp [mkElemRec, kidsOf] at hj
        · rw [List.getElem?_eq_none (by simp; omega)] at hr
          cases hr
    | cons c cs2 =>
      by_cases hli : tg = .LIST_ITEM
      · subst hli
        rw [buildElement_li_eq]
        obtain ⟨clen, cpres, cfa, ckids⟩ :=
          buildChildren_inv (c :: cs2) (st.length + 1)
            ((st ++ [mkElemRec .LIST_ITEM x parentId]) ++ [lbodyRec st.length])
        set stA := (st ++ [mkElemRec .LIST_ITEM x parentId]) ++ [lbodyRec st.length]
          with hstA
        set res := buildChildren (c :: cs2) (st.length + 1) stA with hres
        have hstAlen : stA.length = st.length + 2 := by simp [hstA]
        have hreslen : st.length + 2 ≤ res.1.length := by omega
        have hli_rec : res.1[st.length]? = some (mkElemRec .LIST_ITEM x parentId) := by
          rw [cpres st.length (by omega), hstA,
            List.getElem?_append_left (by simp),
            List.getElem?_concat_length]
        have hlb_rec : res.1[st.length + 1]? = some (lbodyRec st.length) := by
          rw [cpres (st.length + 1) (by omega), hstA]
          have : (st ++ [mkElemRec .LIST_ITEM x parentId]).length = st.length + 1 := by
            simp
          rw [← this, List.getElem?_concat_length]
        have hmid : (setKval res.1 (st.length + 1)
            (.many (res.2.1.map KItem.elemRef)))[st.length]? =
              some (mkElemRec .LIST_ITEM x parentId) := by
          rw [setKval_get_ne (by omega), hli_rec]
        have hlbmid : (setKval res.1 (st.length + 1)
            (.many (res.2.1.map KItem.elemRef)))[st.length + 1]? =
              some { lbodyRec st.length with
                kval := .many (res.2.1.map KItem.elemRef) } :=
          setKval_get_self hlb_rec
        refine ⟨?_, rfl, ?_, ?_, ?_⟩
        · rw [setKval_length, setKval_length]; omega
        · intro i hi
          rw [setKval_get_ne (by omega), setKval_get_ne (by omega),
            cpres i (by omega), hstA, List.getElem?_append_left (by simp; omega),
            List.getElem?_append_left (by omega)]
        · refine ⟨{ mkElemRec .LIST_ITEM x parentId with
            kval := .many [KItem.elemRef (st.length + 1)] },
            setKval_get_self hmid, rfl, rfl⟩
        · intro i r hge hr j hj
          by_cases hi0 : i = st.length
          · subst hi0
            rw [setKval_get_self hmid] at hr
            cases hr
            simp only [kidsOf_many_map] at hj
            have hj1 : j = st.length + 1 := by
              simpa [kidsOf] using hj
            subst hj1
            refine ⟨{ lbodyRec st.length with
              kval := .many (res.2.1.map KItem.elemRef) },
              by rw [setKval_get_ne (by omega)]; exact hlbmid, rfl⟩
          · by_cases hi1 : i = st.length + 1
            · subst hi1
              rw [setKval_get_ne (by omega), hlbmid] at hr
              cases hr
              simp only [kidsOf_many_map] at hj
              obtain ⟨cnode, hcn⟩ := forall₂_exists_left cfa j hj
              obtain ⟨hjge, rc, hrc, hrcp, _⟩ := hcn
              obtain ⟨rc2, hrc2, hp2, _⟩ := setKval_transfer (st.length + 1)
                (.many (res.2.1.map KItem.elemRef)) hrc
              obtain ⟨rc3, hrc3, hp3, _⟩ := setKval_transfer st.length
                (.many [KItem.elemRef (st.length + 1)]) hrc2
              exact ⟨rc3, hrc3, by omega⟩
            · have hge2 : stA.length ≤ i := by omega
              rw [setKval_get_ne hi0, setKval_get_ne hi1] at hr
              obtain ⟨rj, hrj, hrjp⟩ := ckids i r (by omega) hr j hj
              obtain ⟨rj2, hrj2, hp2, _⟩ := setKval_transfer (st.length + 1)
                (.many (res.2.1.map KItem.elemRef)) hrj
              obtain ⟨rj3, hrj3, hp3, _⟩ := setKval_transfer st.length
                (.many [KItem.elemRef (st.length + 1)]) hrj2
              exact ⟨rj3, hrj3, by omega⟩
      · rw [buildElement_cons_eq tg x c cs2 parentId st hli]
        obtain ⟨clen, cpres, cfa, ckids⟩ :=
          buildChildren_inv (c :: cs2) st.length (st ++ [mkElemRec tg x parentId])
        set stA := st ++ [mkElemRec tg x parentId] with hstA
        set res := buildChildren (c :: cs2) st.length stA with hres
        have hstAlen : stA.length = st.length + 1 := by simp [hstA]
        have hrec : res.1[st.length]? = some (mkElemRec tg x parentId) := by
          rw [cpres st.length (by omega), hstA, List.getElem?_concat_length]
        refine ⟨?_, rfl, ?_, ?_, ?_⟩
        · rw [setKval_length]; omega
        · intro i hi
          rw [setKval_get_ne (by omega), cpres i (by omega), hstA,
            List.getElem?_append_left (by omega)]
        · exact ⟨{ mkElemRec tg x parentId with
            kval := .many (res.2.1.map KItem.elemRef) },
            setKval_get_self hrec, rfl, rfl⟩
        · intro i r hge hr j hj
          by_cases hi0 : i = st.length
          · subst hi0
            rw [setKval_get_self hrec] at hr
            cases hr
            simp only [kidsOf_many_map] at hj
            obtain ⟨cnode, hcn⟩ := forall₂_exists_left cfa j hj
            obtain ⟨hjge, rc, hrc, hrcp, _⟩ := hcn
            obtain ⟨rc2, hrc2, hp2, _⟩ := setKval_transfer st.length
              (.many (res.2.1.map KItem.elemRef)) hrc
            exact ⟨rc2, hrc2, by omega⟩
          · rw [setKval_get_ne hi0] at hr
            obtain ⟨rj, hrj, hrjp⟩ := ckids i r (by omega) hr j hj
            obtain ⟨rj2, hrj2, hp2, _⟩ := setKval_transfer st.length
              (.many (res.2.1.map KItem.elemRef)) hrj
            exact ⟨rj2, hrj2, by omega⟩

/-- Invariant of the child loop of `_build_element`. -/
theorem buildChildren_inv (cs : List DocumentNode) (parentId : Nat)
    (st : List ElemRec) :
    st.length ≤ (buildChildren cs parentId st).1.length ∧
    (∀ i, i < st.length → (buildChildren cs parentId st).1[i]? = st[i]?) ∧
    List.Forall₂ (fun cnode idx => st.length ≤ idx ∧
      ∃ r, (buildChildren cs parentId st).1[idx]? = some r ∧
        r.parent = parentId ∧ r.stype = pdfTagName cnode.tag) cs
      (buildChildren cs parentId st).2.1 ∧
    (∀ i r, st.length ≤ i → (buildChildren cs parentId st).1[i]? = some r →
      ∀ j ∈ kidsOf r.kval,
        ∃ rj, (buildChildren cs parentId st).1[j]? = some rj ∧ rj.parent = i) := by
  cases cs with
  | nil =>
    rw [buildChildren_nil_eq]
    refine ⟨le_refl _, fun i _ => rfl, List.Forall₂.nil, ?_⟩
    intro i r hge hr j hj
    have : i < st.length := (List.getElem?_eq_some_iff.mp hr).1
    omega
  | cons c rest =>
    rw [buildChildren_cons_eq]
    obtain ⟨elen, eid, epres, ⟨re, hre, hrep, hres⟩, ekids⟩ :=
      buildElement_inv c parentId st
    obtain ⟨clen, cpres, cfa, ckids⟩ :=
      buildChildren_inv rest parentId (buildElement c parentId st).1
    refine ⟨by dsimp only; omega, ?_, ?_, ?_⟩
    · intro i hi
      rw [cpres i (by omega), epres i hi]
    · refine List.Forall₂.cons ?_ ?_
      · rw [eid]
        refine ⟨le_refl _, re, ?_, hrep, hres⟩
        rw [cpres st.length (by omega)]
        exact hre
      · refine cfa.imp ?_
        intro a b hab
        obtain ⟨hab1, hab2⟩ := hab
        exact ⟨by omega, hab2⟩
    · intro i r hge hr j hj
      by_cases hi : (buildElement c parentId st).1.length ≤ i
      · exact ckids i r hi hr j hj
      · push_neg at hi
        rw [cpres i hi] at hr
        obtain ⟨rj, hrj, hrjp⟩ := ekids i r hge hr j hj
        have hjlt : j < (buildElement c parentId st).1.length :=
          (List.getElem?_eq_some_iff.mp hrj).1
        refine ⟨rj, ?_, hrjp⟩
        rw [cpres j hjlt]
        exact hrj

end

theorem kvalAt_eq {st : List ElemRec} {i : Nat} {r : ElemRec}
    (h : st[i]? = some r) : kvalAt st i = r.kval := by
  unfold kvalAt
  rw [h]

/-- Claim C7 as amended: for every `LIST_ITEM` node **with at least one
child**, the built `LI` element's `/K` is an array holding exactly one
child element; that child is an `/LBody` whose `/P` is the `LI`
element, and the `LBody`'s `/K` holds the elements built from all of
the list item's children, in order and with their roles. -/
theorem li_wraps_children_in_lbody (x : String) (c : DocumentNode)
    (cs2 : List DocumentNode) (parentId : Nat) (st : List ElemRec) :
    ∃ childIds,
      kvalAt (buildElement (.node .LIST_ITEM x (c :: cs2)) parentId st).1
          (buildElement (.node .LIST_ITEM x (c :: cs2)) parentId st).2.1 =
        .many [KItem.elemRef (st.length + 1)] ∧
      (∃ rl, (buildElement (.node .LIST_ITEM x (c :: cs2)) parentId st).1[st.length + 1]? =
          some rl ∧ rl.stype = "LBody" ∧ rl.parent = st.length ∧
          rl.kval = .many (childIds.map KItem.elemRef)) ∧
      List.Forall₂ (fun cnode idx =>
        ∃ rc, (buildElement (.node .LIST_ITEM x (c :: cs2)) parentId st).1[idx]? =
            some rc ∧ rc.parent = st.length + 1 ∧ rc.stype = pdfTagName cnode.tag)
        (c :: cs2) childIds := by
  obtain ⟨clen, cpres, cfa, ckids⟩ :=
    buildChildren_inv (c :: cs2) (st.length + 1)
      ((st ++ [mkElemRec .LIST_ITEM x parentId]) ++ [lbodyRec st.length])
  rw [buildElement_li_eq]
  set stA := (st ++ [mkElemRec .LIST_ITEM x parentId]) ++ [lbodyRec st.length]
    with hstA
  set res := buildChildren (c :: cs2) (st.length + 1) stA with hres
  have hstAlen : stA.length = st.length + 2 := by simp [hstA]
  have hli_rec : res.1[st.length]? = some (mkElemRec .LIST_ITEM x parentId) := by
    rw [cpres st.length (by omega), hstA, List.getElem?_append_left (by simp),
      List.getElem?_concat_length]
  have hlb_rec : res.1[st.length + 1]? = some (lbodyRec st.length) := by
    rw [cpres (st.length + 1) (by omega), hstA]
    have hl1 : (st ++ [mkElemRec .LIST_ITEM x parentId]).length = st.length + 1 := by
      simp
    rw [← hl1, List.getElem?_concat_length]
  have hmid : (setKval res.1 (st.length + 1)
      (.many (res.2.1.map KItem.elemRef)))[st.length]? =
        some (mkElemRec .LIST_ITEM x parentId) := by
    rw [setKval_get_ne (by omega), hli_rec]
  have hlbmid : (setKval res.1 (st.length + 1)
      (.many (res.2.1.map KItem.elemRef)))[st.length + 1]? =
        some { lbodyRec st.length with
          kval := .many (res.2.1.map KItem.elemRef) } :=
    setKval_get_self hlb_rec
  refine ⟨res.2.1, ?_, ?_, ?_⟩
  · exact kvalAt_eq (setKval_get_self hmid)
  · refine ⟨{ lbodyRec st.length with kval := .many (res.2.1.map KItem.elemRef) },
      ?_, rfl, rfl, rfl⟩
    rw [setKval_get_ne (by omega)]
    exact hlbmid
  · refine cfa.imp ?_
    intro a b hab
    obtain ⟨hge, rc, hrc, hrcp, hrcs⟩ := hab
    obtain ⟨rc2, hrc2, hp2, hs2, _⟩ := setKval_transfer (st.length + 1)
      (.many (res.2.1.map KItem.elemRef)) hrc
    obtain ⟨rc3, hrc3, hp3, hs3, _⟩ := setKval_transfer st.length
      (.many [KItem.elemRef (st.length + 1)]) hrc2
    exact ⟨rc3, hrc3, by omega, by rw [hs3, hs2, hrcs]⟩

/-- Counterexample to C7 as stated: a childless `LIST_ITEM` is treated
as a leaf — its `/K` stays unset, and no `/LBody` is created. -/
theorem li_childless_counterexample :
    kvalAt (buildElement (.node .LIST_ITEM ("x") []) 0 [structRootRec]).1 1 =
      KVal.unset ∧
    isSingletonElemArray
      (kvalAt (buildElement (.node .LIST_ITEM ("x") []) 0 [structRootRec]).1 1) =
      false :=
  ⟨rfl, rfl⟩

/-- The builder output (root at index 0, document element under it) has
consistent parent pointers everywhere. -/
theorem buildStructTree_parentOk (tree : DocumentNode) :
    parentOk (buildStructTree tree).1 := by
  obtain ⟨hlen, hid, hpres, ⟨r1, hr1, hr1p, _⟩, hkids⟩ :=
    buildElement_inv tree 0 [structRootRec]
  have hrootlen : ([structRootRec] : List ElemRec).length = 1 := rfl
  unfold buildStructTree parentOk
  intro i r hi j hj
  by_cases hi0 : i = 0
  · subst hi0
    have hroot : (buildElement tree 0 [structRootRec]).1[0]? = some structRootRec := by
      rw [hpres 0 (by omega)]
      rfl
    rw [setKval_get_self hroot] at hi
    cases hi
    have hj1 : j = (buildElement tree 0 [structRootRec]).2.1 := by
      simpa [kidsOf] using hj
    subst hj1
    rw [hid, setKval_get_ne (by omega)]
    rw [hrootlen] at hr1
    exact ⟨r1, hr1, by rw [hr1p]⟩
  · rw [setKval_get_ne hi0] at hi
    have hge : ([structRootRec] : List ElemRec).length ≤ i := by omega
    obtain ⟨rj, hrj, hrjp⟩ := hkids i r hge hi j hj
    obtain ⟨rj2, hrj2, hp2, _⟩ := setKval_transfer 0
      (.one (KItem.elemRef (buildElement tree 0 [structRootRec]).2.1)) hrj
    exact ⟨rj2, hrj2, by omega⟩

/-! ## The annotation linker (claims C3, C9, C10)

`_link_annotations_to_structure` walks every page's annotations.  An
annotation dictionary is modelled by its fields relevant to the linker:
`/Subtype` (as its string form), the `/A` action's `/URI` string, the
`/Dest` string form, `/Contents`, `/StructParent`, and an opaque list
of all remaining keys.
-/

/-- A PDF annotation dictionary. -/
structure Annot where
  subtype : String
  uri : Option String
  dest : Option String
  contents : Option String
  structParent : Option Nat
  rest : List (String × String)
deriving DecidableEq, Repr

/-- The alt description: the action URI if non-empty, else the string
form of `/Dest` if present, else the literal `"Link"`. -/
def annotAltText (a : Annot) : String :=
  if a.uri.getD "" ≠ "" then a.uri.getD ""
  else
    match a.dest with
    | some d => d
    | none => "Link"

/-- `struct_root["/K"]` — the document element's index (the fallback 0
is unreachable after `tag` installed the root's `/K`). -/
def docElemOf (st : List ElemRec) : Nat :=
  match st[0]? with
  | some r =>
    match r.kval with
    | .one (.elemRef d) => d
    | _ => 0
  | none => 0

/-- Appending to a `/K` slot: absent becomes the single object, a
single object becomes a two-element array, an array is extended. -/
def appendKItem (k : KVal) (item : KItem) : KVal :=
  match k with
  | .unset => .one item
  | .one k0 => .many [k0, item]
  | .many ks => .many (ks ++ [item])

/-- Append `item` to the `/K` of the element at index `i`. -/
def appendToK (st : List ElemRec) (i : Nat) (item : KItem) : List ElemRec :=
  setKval st i (appendKItem (kvalAt st i) item)

/-- The items of a `/K` slot. -/
def kitemsOf (k : KVal) : List KItem :=
  match k with
  | .unset => []
  | .one k0 => [k0]
  | .many ks => ks

/-- The loop state of `_link_annotations_to_structure`. -/
structure ALState where
  store : List ElemRec
  linkIdx : Nat
  nextKey : Nat
  entries : List (Nat × Nat)
deriving DecidableEq, Repr

/-- Embeds the body of the annotation loop for the annotation at
`(pageIdx, pos)`: skip non-link annotations; otherwise set `/Contents`
(only when absent) and `/StructParent`, consume the next parser `/Link`
leaf or synthesise a `Link` element under the document element with
`/P` pointing at the structure root, append the OBJR to the owner's
`/K`, and record the parent-tree entry. -/
def stepAnnot (linkLeafIds : List Nat) (pageIdx pos : Nat) (s : ALState)
    (a : Annot) : ALState × Annot :=
  if a.subtype ≠ "/Link" then (s, a)
  else
    let alt := annotAltText a
    let a2 : Annot := { a with
      contents := match a.contents with
                  | none => some alt
                  | some cnts => some cnts
      structParent := some s.nextKey }
    match linkLeafIds[s.linkIdx]? with
    | some eid =>
      let st2 := appendToK s.store eid (.objr pageIdx pos)
      ({ store := st2, linkIdx := s.linkIdx + 1, nextKey := s.nextKey + 1,
         entries := s.entries ++ [(s.nextKey, eid)] }, a2)
    | none =>
      let newId := s.store.length
      let st1 := s.store ++ [⟨"Link", 0, some alt, none, .unset⟩]
      let st2 := appendToK st1 (docElemOf st1) (.elemRef newId)
      let st3 := appendToK st2 newId (.objr pageIdx pos)
      ({ store := st3, linkIdx := s.linkIdx, nextKey := s.nextKey + 1,
         entries := s.entries ++ [(s.nextKey, newId)] }, a2)

/-- The annotation loop over one page. -/
def annotLoopPage (linkLeafIds : List Nat) (pageIdx : Nat) :
    List Annot → Nat → ALState → List Annot × ALState
  | [], _, s => ([], s)
  | a :: restA, pos, s =>
    let r := stepAnnot linkLeafIds pageIdx pos s a
    let r2 := annotLoopPage linkLeafIds pageIdx restA (pos + 1) r.1
    (r.2 :: r2.1, r2.2)

/-- The loop over all pages. -/
def annotLoopPages (linkLeafIds : List Nat) :
    List (List Annot) → Nat → ALState → List (List Annot) × ALState
  | [], _, s => ([], s)
  | pg :: restP, pageIdx, s =>
    let r1 := annotLoopPage linkLeafIds pageIdx pg 0 s
    let r2 := annotLoopPages linkLeafIds restP (pageIdx + 1) r1.2
    (r1.1 :: r2.1, r2.2)

/-- Embeds `_link_annotations_to_structure`: next parent-tree key
starts at the page count; returns the updated annotations and state. -/
def linkAnnotsToStructure (pages : List (List Annot)) (linkLeafIds : List Nat)
    (st : List ElemRec) : List (List Annot) × ALState :=
  annotLoopPages linkLeafIds pages 0 ⟨st, 0, pages.length, []⟩

/-! ### Per-step lemmas for the annotation loop -/

theorem kitemsOf_appendKItem (k : KVal) (item : KItem) :
    kitemsOf (appendKItem k item) = kitemsOf k ++ [item] := by
  cases k <;> rfl

theorem kvalAt_appendToK_ne {st : List ElemRec} {i j : Nat} {item : KItem}
    (h : i ≠ j) : kvalAt (appendToK st j item) i = kvalAt st i := by
  unfold appendToK kvalAt
  rw [setKval_get_ne h]

theorem kvalAt_appendToK_self {st : List ElemRec} {i : Nat} {item : KItem}
    {r : ElemRec} (h : st[i]? = some r) :
    kvalAt (appendToK st i item) i = appendKItem r.kval item := by
  unfold appendToK
  rw [kvalAt_eq (setKval_get_self h), kvalAt_eq h]

theorem kmem_appendToK (st : List ElemRec) (j : Nat) (item : KItem) (i : Nat)
    (x : KItem) (hx : x ∈ kitemsOf (kvalAt st i)) :
    x ∈ kitemsOf (kvalAt (appendToK st j item) i) := by
  by_cases hij : i = j
  · subst hij
    cases hsi : st[i]? with
    | none =>
      unfold kvalAt at hx
      rw [hsi] at hx
      simp [kitemsOf] at hx
    | some r =>
      rw [kvalAt_appendToK_self hsi, kitemsOf_appendKItem]
      rw [kvalAt_eq hsi] at hx
      exact List.mem_append_left _ hx
  · rw [kvalAt_appendToK_ne hij]
    exact hx

theorem kmem_extend (st : List ElemRec) (r : ElemRec) (i : Nat) (x : KItem)
    (hx : x ∈ kitemsOf (kvalAt st i)) :
    x ∈ kitemsOf (kvalAt (st ++ [r]) i) := by
  by_cases hi : i < st.length
  · unfold kvalAt at hx ⊢
    rw [List.getElem?_append_left hi]
    exact hx
  · unfold kvalAt at hx
    rw [List.getElem?_eq_none (by omega)] at hx
    simp [kitemsOf] at hx

theorem kitem_self_appendToK {st : List ElemRec} {i : Nat} {item : KItem}
    {r : ElemRec} (h : st[i]? = some r) :
    item ∈ kitemsOf (kvalAt (appendToK st i item) i) := by
  rw [kvalAt_appendToK_self h, kitemsOf_appendKItem]
  exact List.mem_append_right _ (List.mem_singleton.mpr rfl)

theorem appendToK_length (st : List ElemRec) (j : Nat) (item : KItem) :
    (appendToK st j item).length = st.length := by
  unfold appendToK
  exact setKval_length st j _

theorem appendToK_transfer {st : List ElemRec} {i : Nat} {r : ElemRec}
    (j : Nat) (item : KItem) (h : st[i]? = some r) :
    ∃ r2, (appendToK st j item)[i]? = some r2 ∧ r2.parent = r.parent ∧
      r2.stype = r.stype ∧ r2.alt = r.alt ∧ r2.actualText = r.actualText := by
  unfold appendToK
  exact setKval_transfer j _ h

/-- How the processed annotation relates to the input annotation:
everything but `/Contents` and `/StructParent` is untouched; an
existing `/Contents` survives; a missing one becomes the alt text;
`/StructParent` is assigned; non-link annotations are untouched. -/
def annotRel (aIn aOut : Annot) : Prop :=
  aOut.subtype = aIn.subtype ∧ aOut.uri = aIn.uri ∧ aOut.dest = aIn.dest ∧
  aOut.rest = aIn.rest ∧
  (aIn.subtype ≠ "/Link" → aOut = aIn) ∧
  (aIn.subtype = "/Link" →
    (∀ cnts, aIn.contents = some cnts → aOut.contents = some cnts) ∧
    (aIn.contents = none → aOut.contents = some (annotAltText aIn)) ∧
    (∃ key, aOut.structParent = some key))

theorem stepAnnot_not_link {lli : List Nat} {pi pos : Nat} {s : ALState}
    {a : Annot} (h : a.subtype ≠ "/Link") :
    stepAnnot lli pi pos s a = (s, a) := by
  unfold stepAnnot
  rw [if_pos h]

/-- The linker never shrinks the store, never changes `/S`, `/P`,
`/Alt` or `/ActualText` of an existing element, and every element it
creates is a `Link` whose `/P` is the structure tree root (index 0). -/
theorem stepAnnot_store (lli : List Nat) (pi pos : Nat) (s : ALState) (a : Annot) :
    s.store.length ≤ (stepAnnot lli pi pos s a).1.store.length ∧
    (∀ (i : Nat) (r : ElemRec), s.store[i]? = some r → ∃ r2 : ElemRec,
      (stepAnnot lli pi pos s a).1.store[i]? = some r2 ∧
      r2.parent = r.parent ∧ r2.stype = r.stype ∧ r2.alt = r.alt ∧
      r2.actualText = r.actualText) ∧
    (∀ (i : Nat) (r : ElemRec), s.store.length ≤ i →
      (stepAnnot lli pi pos s a).1.store[i]? = some r →
      r.stype = "Link" ∧ r.parent = 0) := by
  by_cases hlink : a.subtype ≠ "/Link"
  · rw [stepAnnot_not_link hlink]
    refine ⟨le_refl _, ?_, ?_⟩
    · intro i r hr
      exact ⟨r, hr, rfl, rfl, rfl, rfl⟩
    · intro i r hge hr
      have hlt2 : i < s.store.length := (List.getElem?_eq_some_iff.mp hr).1
      omega
  · unfold stepAnnot
    rw [if_neg hlink]
    cases hc : lli[s.linkIdx]? with
    | some eid =>
      refine ⟨by simp [appendToK_length], ?_, ?_⟩
      · intro i r hr
        exact appendToK_transfer _ _ hr
      · intro i r hge hr
        have hlt := (List.getElem?_eq_some_iff.mp hr).1
        rw [appendToK_length] at hlt
        omega
    | none =>
      set st1 := s.store ++ [(⟨"Link", 0, some (annotAltText a), none, .unset⟩ : ElemRec)]
        with hst1
      refine ⟨?_, ?_, ?_⟩
      · simp [appendToK_length, hst1]
      · intro i r hr
        have hi : i < s.store.length := (List.getElem?_eq_some_iff.mp hr).1
        have hr1 : st1[i]? = some r := by
          rw [hst1, List.getElem?_append_left hi]
          exact hr
        obtain ⟨r2, hr2, h2⟩ := appendToK_transfer (docElemOf st1)
          (KItem.elemRef s.store.length) hr1
        obtain ⟨r3, hr3, h3⟩ := appendToK_transfer s.store.length
          (KItem.objr pi pos) hr2
        exact ⟨r3, hr3, by rw [h3.1, h2.1], by rw [h3.2.1, h2.2.1],
          by rw [h3.2.2.1, h2.2.2.1], by rw [h3.2.2.2, h2.2.2.2]⟩
      · intro i r hge hr
        have hlt := (List.getElem?_eq_some_iff.mp hr).1
        rw [appendToK_length, appendToK_length] at hlt
        rw [← hst1] at hlt
        have hst1len : st1.length = s.store.length + 1 := by simp [hst1]
        have hieq : i = s.store.length := by omega
        subst hieq
        have hr1 : st1[s.store.length]? =
            some ⟨"Link", 0, some (annotAltText a), none, .unset⟩ := by
          rw [hst1]
          exact List.getElem?_concat_length ..
        obtain ⟨r2, hr2, h2⟩ := appendToK_transfer (docElemOf st1)
          (KItem.elemRef s.store.length) hr1
        obtain ⟨r3, hr3, h3⟩ := appendToK_transfer s.store.length
          (KItem.objr pi pos) hr2
        rw [hr] at hr3
        cases hr3
        constructor
        · rw [h3.2.1, h2.2.1]
        · rw [h3.1, h2.1]

theorem stepAnnot_entries (lli : List Nat) (pi pos : Nat) (s : ALState)
    (a : Annot) :
    ∃ newE : List (Nat × Nat),
      (stepAnnot lli pi pos s a).1.entries = s.entries ++ newE ∧
      newE.map Prod.fst = List.range' s.nextKey newE.length ∧
      (stepAnnot lli pi pos s a).1.nextKey = s.nextKey + newE.length := by
  by_cases hlink : a.subtype ≠ "/Link"
  · rw [stepAnnot_not_link hlink]
    exact ⟨[], by simp, rfl, by simp⟩
  · unfold stepAnnot
    rw [if_neg hlink]
    cases hc : lli[s.linkIdx]? with
    | some eid => exact ⟨[(s.nextKey, eid)], rfl, by simp [List.range'], rfl⟩
    | none => exact ⟨[(s.nextKey, s.store.length)], rfl, by simp [List.range'], rfl⟩

theorem stepAnnot_kmem (lli : List Nat) (pi pos : Nat) (s : ALState) (a : Annot)
    (i : Nat) (x : KItem) (hx : x ∈ kitemsOf (kvalAt s.store i)) :
    x ∈ kitemsOf (kvalAt (stepAnnot lli pi pos s a).1.store i) := by
  by_cases hlink : a.subtype ≠ "/Link"
  · rw [stepAnnot_not_link hlink]
    exact hx
  · unfold stepAnnot
    rw [if_neg hlink]
    cases hc : lli[s.linkIdx]? with
    | some eid => exact kmem_appendToK _ _ _ _ _ hx
    | none =>
      exact kmem_appendToK _ _ _ _ _ (kmem_appendToK _ _ _ _ _
        (kmem_extend _ _ _ _ hx))

theorem stepAnnot_rel (lli : List Nat) (pi pos : Nat) (s : ALState) (a : Annot) :
    annotRel a (stepAnnot lli pi pos s a).2 := by
  by_cases hlink : a.subtype ≠ "/Link"
  · rw [stepAnnot_not_link hlink]
    exact ⟨rfl, rfl, rfl, rfl, fun _ => rfl, fun h => absurd h hlink⟩
  · push_neg at hlink
    unfold stepAnnot
    rw [if_neg (by simp [hlink])]
    have hbody : ∀ a2 : Annot,
        a2 = { a with
          contents := match a.contents with
                      | none => some (annotAltText a)
                      | some cnts => some cnts
          structParent := some s.nextKey } →
        annotRel a a2 := by
      intro a2 ha2
      subst ha2
      refine ⟨rfl, rfl, rfl, rfl, fun h => absurd hlink h, fun _ => ⟨?_, ?_, ?_⟩⟩
      · intro cnts hcnts
        simp [hcnts]
      · intro hn
        simp [hn]
      · exact ⟨s.nextKey, rfl⟩
    cases hc : lli[s.linkIdx]? with
    | some eid => exact hbody _ rfl
    | none => exact hbody _ rfl

theorem stepAnnot_owner (lli : List Nat) (pi pos : Nat) (s : ALState) (a : Annot)
    (hvalid : ∀ eid ∈ lli, eid < s.store.length)
    (hlink : a.subtype = "/Link") :
    ∃ eid,
      (stepAnnot lli pi pos s a).1.entries = s.entries ++ [(s.nextKey, eid)] ∧
      (stepAnnot lli pi pos s a).2.structParent = some s.nextKey ∧
      KItem.objr pi pos ∈
        kitemsOf (kvalAt (stepAnnot lli pi pos s a).1.store eid) := by
  unfold stepAnnot
  rw [if_neg (by simp [hlink])]
  cases hc : lli[s.linkIdx]? with
  | some eid =>
    have hmem : eid ∈ lli := List.getElem?_mem hc
    have hlt : eid < s.store.length := hvalid eid hmem
    cases hr : s.store[eid]? with
    | none =>
      rw [List.getElem?_eq_none_iff] at hr
      omega
    | some r => exact ⟨eid, rfl, rfl, kitem_self_appendToK hr⟩
  | none =>
    set st1 := s.store ++ [(⟨"Link", 0, some (annotAltText a), none, .unset⟩ : ElemRec)]
      with hst1
    have hr1 : st1[s.store.length]? =
        some ⟨"Link", 0, some (annotAltText a), none, .unset⟩ := by
      rw [hst1]
      exact List.getElem?_concat_length ..
    obtain ⟨r2, hr2, _⟩ := appendToK_transfer (docElemOf st1)
      (KItem.elemRef s.store.length) hr1
    exact ⟨s.store.length, rfl, rfl, kitem_self_appendToK hr2⟩

/-! ### Loop-level lemmas for the annotation linker -/

theorem annotLoopPage_nil (lli : List Nat) (pageIdx pos : Nat) (s : ALState) :
    annotLoopPage lli pageIdx [] pos s = ([], s) := rfl

theorem annotLoopPage_cons (lli : List Nat) (pageIdx : Nat) (a : Annot)
    (restA : List Annot) (pos : Nat) (s : ALState) :
    annotLoopPage lli pageIdx (a :: restA) pos s =
      ((stepAnnot lli pageIdx pos s a).2 ::
        (annotLoopPage lli pageIdx restA (pos + 1) (stepAnnot lli pageIdx pos s a).1).1,
       (annotLoopPage lli pageIdx restA (pos + 1) (stepAnnot lli pageIdx pos s a).1).2) := rfl

theorem annotLoopPages_nil (lli : List Nat) (pageIdx : Nat) (s : ALState) :
    annotLoopPages lli [] pageIdx s = ([], s) := rfl

theorem annotLoopPages_cons (lli : List Nat) (pg : List Annot)
    (restP : List (List Annot)) (pageIdx : Nat) (s : ALState) :
    annotLoopPages lli (pg :: restP) pageIdx s =
      ((annotLoopPage lli pageIdx pg 0 s).1 ::
        (annotLoopPages lli restP (pageIdx + 1) (annotLoopPage lli pageIdx pg 0 s).2).1,
       (annotLoopPages lli restP (pageIdx + 1) (annotLoopPage lli pageIdx pg 0 s).2).2) := rfl

theorem annotLoopPage_store (lli : List Nat) (pageIdx : Nat)
    (annots : List Annot) :
    ∀ (pos : Nat) (s : ALState),
      s.store.length ≤ (annotLoopPage lli pageIdx annots pos s).2.store.length ∧
      (∀ (i : Nat) (r : ElemRec), s.store[i]? = some r → ∃ r2 : ElemRec,
        (annotLoopPage lli pageIdx annots pos s).2.store[i]? = some r2 ∧
        r2.parent = r.parent ∧ r2.stype = r.stype ∧ r2.alt = r.alt ∧
        r2.actualText = r.actualText) ∧
      (∀ (i : Nat) (r : ElemRec), s.store.length ≤ i →
        (annotLoopPage lli pageIdx annots pos s).2.store[i]? = some r →
        r.stype = "Link" ∧ r.parent = 0) := by
  induction annots with
  | nil =>
    intro pos s
    rw [annotLoopPage_nil]
    refine ⟨le_refl _, ?_, ?_⟩
    · intro i r hr
      exact ⟨r, hr, rfl, rfl, rfl, rfl⟩
    · intro i r hge hr
      have hlt : i < s.store.length := (List.getElem?_eq_some_iff.mp hr).1
      omega
  | cons a restA ih =>
    intro pos s
    rw [annotLoopPage_cons]
    dsimp only
    obtain ⟨slen, stransfer, snew⟩ := stepAnnot_store lli pageIdx pos s a
    obtain ⟨ilen, itransfer, inew⟩ := ih (pos + 1) (stepAnnot lli pageIdx pos s a).1
    refine ⟨by omega, ?_, ?_⟩
    · intro i r hr
      obtain ⟨r2, hr2, h2a, h2b, h2c, h2d⟩ := stransfer i r hr
      obtain ⟨r3, hr3, h3a, h3b, h3c, h3d⟩ := itransfer i r2 hr2
      exact ⟨r3, hr3, by rw [h3a, h2a], by rw [h3b, h2b], by rw [h3c, h2c],
        by rw [h3d, h2d]⟩
    · intro i r hge hr
      by_cases hmid : (stepAnnot lli pageIdx pos s a).1.store.length ≤ i
      · exact inew i r hmid hr
      · push_neg at hmid
        cases hq : (stepAnnot lli pageIdx pos s a).1.store[i]? with
        | none =>
          rw [List.getElem?_eq_none_iff] at hq
          omega
        | some r1 =>
          obtain ⟨hs1, hp1⟩ := snew i r1 hge hq
          obtain ⟨r3, hr3, h3a, h3b, _, _⟩ := itransfer i r1 hq
          rw [hr] at hr3
          cases hr3
          exact ⟨by rw [h3b, hs1], by rw [h3a, hp1]⟩

theorem annotLoopPage_entries (lli : List Nat) (pageIdx : Nat)
    (annots : List Annot) :
    ∀ (pos : Nat) (s : ALState),
      ∃ newE : List (Nat × Nat),
        (annotLoopPage lli pageIdx annots pos s).2.entries = s.entries ++ newE ∧
        newE.map Prod.fst = List.range' s.nextKey newE.length ∧
        (annotLoopPage lli pageIdx annots pos s).2.nextKey =
          s.nextKey + newE.length := by
  induction annots with
  | nil =>
    intro pos s
    rw [annotLoopPage_nil]
    exact ⟨[], by simp, rfl, by simp⟩
  | cons a restA ih =>
    intro pos s
    rw [annotLoopPage_cons]
    obtain ⟨e1, he1, hk1, hn1⟩ := stepAnnot_entries lli pageIdx pos s a
    obtain ⟨e2, he2, hk2, hn2⟩ := ih (pos + 1) (stepAnnot lli pageIdx pos s a).1
    refine ⟨e1 ++ e2, ?_, ?_, ?_⟩
    · rw [he2, he1, List.append_assoc]
    · rw [List.map_append, hk1, hk2, hn1]
      have := List.range'_append s.nextKey e1.length e2.length 1
      simp only [one_mul] at this
      rw [this, Nat.add_comm e2.length e1.length, List.length_append]
    · rw [hn2, hn1, List.length_append]
      omega

theorem annotLoopPage_kmem (lli : List Nat) (pageIdx : Nat)
    (annots : List Annot) :
    ∀ (pos : Nat) (s : ALState) (i : Nat) (x : KItem),
      x ∈ kitemsOf (kvalAt s.store i) →
      x ∈ kitemsOf (kvalAt (annotLoopPage lli pageIdx annots pos s).2.store i) := by
  induction annots with
  | nil =>
    intro pos s i x hx
    rw [annotLoopPage_nil]
    exact hx
  | cons a restA ih =>
    intro pos s i x hx
    rw [annotLoopPage_cons]
    exact ih (pos + 1) _ i x (stepAnnot_kmem lli pageIdx pos s a i x hx)

theorem annotLoopPage_rel (lli : List Nat) (pageIdx : Nat)
    (annots : List Annot) :
    ∀ (pos : Nat) (s : ALState),
      List.Forall₂ annotRel annots (annotLoopPage lli pageIdx annots pos s).1 := by
  induction annots with
  | nil =>
    intro pos s
    rw [annotLoopPage_nil]
    exact List.Forall₂.nil
  | cons a restA ih =>
    intro pos s
    rw [annotLoopPage_cons]
    exact List.Forall₂.cons (stepAnnot_rel lli pageIdx pos s a)
      (ih (pos + 1) _)

theorem annotLoopPage_owner (lli : List Nat) (pageIdx : Nat)
    (annots : List Annot) :
    ∀ (pos : Nat) (s : ALState),
      (∀ eid ∈ lli, eid < s.store.length) →
      ∀ (k : Nat) (a : Annot), annots[k]? = some a → a.subtype = "/Link" →
        ∃ key eid aOut,
          (annotLoopPage lli pageIdx annots pos s).1[k]? = some aOut ∧
          aOut.structParent = some key ∧
          (key, eid) ∈ (annotLoopPage lli pageIdx annots pos s).2.entries ∧
          KItem.objr pageIdx (pos + k) ∈
            kitemsOf (kvalAt (annotLoopPage lli pageIdx annots pos s).2.store eid) := by
  induction annots with
  | nil =>
    intro pos s _ k a hka
    simp at hka
  | cons a0 restA ih =>
    intro pos s hvalid k a hka hlink
    rw [annotLoopPage_cons]
    cases k with
    | zero =>
      rw [List.getElem?_cons_zero] at hka
      cases hka
      obtain ⟨eid, hent, hsp, hobjr⟩ := stepAnnot_owner lli pageIdx pos s a0
        hvalid hlink
      obtain ⟨newE, hE, _, _⟩ := annotLoopPage_entries lli pageIdx restA
        (pos + 1) (stepAnnot lli pageIdx pos s a0).1
      refine ⟨s.nextKey, eid, (stepAnnot lli pageIdx pos s a0).2, by simp, hsp, ?_, ?_⟩
      · dsimp only
        rw [hE, hent]
        exact List.mem_append_left _ (List.mem_append_right _
          (List.mem_singleton.mpr rfl))
      · have := annotLoopPage_kmem lli pageIdx restA (pos + 1)
          (stepAnnot lli pageIdx pos s a0).1 eid (KItem.objr pageIdx pos) hobjr
        simpa using this
    | succ k2 =>
      rw [List.getElem?_cons_succ] at hka
      have hvalid2 : ∀ eid ∈ lli, eid < (stepAnnot lli pageIdx pos s a0).1.store.length := by
        intro eid he
        have := hvalid eid he
        have := (stepAnnot_store lli pageIdx pos s a0).1
        omega
      obtain ⟨key, eid, aOut, h1, h2, h3, h4⟩ := ih (pos + 1)
        (stepAnnot lli pageIdx pos s a0).1 hvalid2 k2 a hka hlink
      refine ⟨key, eid, aOut, by simpa using h1, h2, h3, ?_⟩
      have : pos + 1 + k2 = pos + (k2 + 1) := by omega
      rw [← this]
      exact h4

theorem annotLoopPages_store (lli : List Nat) (pages : List (List Annot)) :
    ∀ (pageIdx : Nat) (s : ALState),
      s.store.length ≤ (annotLoopPages lli pages pageIdx s).2.store.length ∧
      (∀ (i : Nat) (r : ElemRec), s.store[i]? = some r → ∃ r2 : ElemRec,
        (annotLoopPages lli pages pageIdx s).2.store[i]? = some r2 ∧
        r2.parent = r.parent ∧ r2.stype = r.stype ∧ r2.alt = r.alt ∧
        r2.actualText = r.actualText) ∧
      (∀ (i : Nat) (r : ElemRec), s.store.length ≤ i →
        (annotLoopPages lli pages pageIdx s).2.store[i]? = some r →
        r.stype = "Link" ∧ r.parent = 0) := by
  induction pages with
  | nil =>
    intro pageIdx s
    rw [annotLoopPages_nil]
    refine ⟨le_refl _, ?_, ?_⟩
    · intro i r hr
      exact ⟨r, hr, rfl, rfl, rfl, rfl⟩
    · intro i r hge hr
      have hlt : i < s.store.length := (List.getElem?_eq_some_iff.mp hr).1
      omega
  | cons pg restP ih =>
    intro pageIdx s
    rw [annotLoopPages_cons]
    dsimp only
    obtain ⟨slen, stransfer, snew⟩ := annotLoopPage_store lli pageIdx pg 0 s
    obtain ⟨ilen, itransfer, inew⟩ := ih (pageIdx + 1) (annotLoopPage lli pageIdx pg 0 s).2
    refine ⟨by omega, ?_, ?_⟩
    · intro i r hr
      obtain ⟨r2, hr2, h2a, h2b, h2c, h2d⟩ := stransfer i r hr
      obtain ⟨r3, hr3, h3a, h3b, h3c, h3d⟩ := itransfer i r2 hr2
      exact ⟨r3, hr3, by rw [h3a, h2a], by rw [h3b, h2b], by rw [h3c, h2c],
        by rw [h3d, h2d]⟩
    · intro i r hge hr
      by_cases hmid : (annotLoopPage lli pageIdx pg 0 s).2.store.length ≤ i
      · exact inew i r hmid hr
      · push_neg at hmid
        cases hq : (annotLoopPage lli pageIdx pg 0 s).2.store[i]? with
        | none =>
          rw [List.getElem?_eq_none_iff] at hq
          omega
        | some r1 =>
          obtain ⟨hs1, hp1⟩ := snew i r1 hge hq
          obtain ⟨r3, hr3, h3a, h3b, _, _⟩ := itransfer i r1 hq
          rw [hr] at hr3
          cases hr3
          exact ⟨by rw [h3b, hs1], by rw [h3a, hp1]⟩

theorem annotLoopPages_entries (lli : List Nat) (pages : List (List Annot)) :
    ∀ (pageIdx : Nat) (s : ALState),
      ∃ newE : List (Nat × Nat),
        (annotLoopPages lli pages pageIdx s).2.entries = s.entries ++ newE ∧
        newE.map Prod.fst = List.range' s.nextKey newE.length ∧
        (annotLoopPages lli pages pageIdx s).2.nextKey =
          s.nextKey + newE.length := by
  induction pages with
  | nil =>
    intro pageIdx s
    rw [annotLoopPages_nil]
    exact ⟨[], by simp, rfl, by simp⟩
  | cons pg restP ih =>
    intro pageIdx s
    rw [annotLoopPages_cons]
    dsimp only
    obtain ⟨e1, he1, hk1, hn1⟩ := annotLoopPage_entries lli pageIdx pg 0 s
    obtain ⟨e2, he2, hk2, hn2⟩ := ih (pageIdx + 1) (annotLoopPage lli pageIdx pg 0 s).2
    refine ⟨e1 ++ e2, ?_, ?_, ?_⟩
    · rw [he2, he1, List.append_assoc]
    · rw [List.map_append, hk1, hk2, hn1]
      have := List.range'_append s.nextKey e1.length e2.length 1
      simp only [one_mul] at this
      rw [this, Nat.add_comm e2.length e1.length, List.length_append]
    · rw [hn2, hn1, List.length_append]
      omega

theorem annotLoopPages_kmem (lli : List Nat) (pages : List (List Annot)) :
    ∀ (pageIdx : Nat) (s : ALState) (i : Nat) (x : KItem),
      x ∈ kitemsOf (kvalAt s.store i) →
      x ∈ kitemsOf (kvalAt (annotLoopPages lli pages pageIdx s).2.store i) := by
  induction pages with
  | nil =>
    intro pageIdx s i x hx
    rw [annotLoopPages_nil]
    exact hx
  | cons pg restP ih =>
    intro pageIdx s i x hx
    rw [annotLoopPages_cons]
    exact ih (pageIdx + 1) _ i x (annotLoopPage_kmem lli pageIdx pg 0 s i x hx)

theorem annotLoopPages_rel (lli : List Nat) (pages : List (List Annot)) :
    ∀ (pageIdx : Nat) (s : ALState),
      List.Forall₂ (List.Forall₂ annotRel) pages
        (annotLoopPages lli pages pageIdx s).1 := by
  induction pages with
  | nil =>
    intro pageIdx s
    rw [annotLoopPages_nil]
    exact List.Forall₂.nil
  | cons pg restP ih =>
    intro pageIdx s
    rw [annotLoopPages_cons]
    exact List.Forall₂.cons (annotLoopPage_rel lli pageIdx pg 0 s)
      (ih (pageIdx + 1) _)

theorem annotLoopPages_owner (lli : List Nat) (pages : List (List Annot)) :
    ∀ (pageIdx : Nat) (s : ALState),
      (∀ eid ∈ lli, eid < s.store.length) →
      ∀ (po k : Nat) (pg : List Annot) (a : Annot),
        pages[po]? = some pg → pg[k]? = some a → a.subtype = "/Link" →
        ∃ key eid aOut pgOut,
          (annotLoopPages lli pages pageIdx s).1[po]? = some pgOut ∧
          pgOut[k]? = some aOut ∧ aOut.structParent = some key ∧
          (key, eid) ∈ (annotLoopPages lli pages pageIdx s).2.entries ∧
          KItem.objr (pageIdx + po) k ∈
            kitemsOf (kvalAt (annotLoopPages lli pages pageIdx s).2.store eid) := by
  induction pages with
  | nil =>
    intro pageIdx s _ po k pg a hpo
    simp at hpo
  | cons pg0 restP ih =>
    intro pageIdx s hvalid po k pg a hpo hk hlink
    rw [annotLoopPages_cons]
    cases po with
    | zero =>
      rw [List.getElem?_cons_zero] at hpo
      cases hpo
      obtain ⟨key, eid, aOut, h1, h2, h3, h4⟩ := annotLoopPage_owner lli pageIdx
        pg0 0 s hvalid k a hk hlink
      obtain ⟨newE, hE, _, _⟩ := annotLoopPages_entries lli restP (pageIdx + 1)
        (annotLoopPage lli pageIdx pg0 0 s).2
      refine ⟨key, eid, aOut, (annotLoopPage lli pageIdx pg0 0 s).1, by simp,
        h1, h2, ?_, ?_⟩
      · dsimp only
        rw [hE]
        exact List.mem_append_left _ h3
      · have := annotLoopPages_kmem lli restP (pageIdx + 1)
          (annotLoopPage lli pageIdx pg0 0 s).2 eid (KItem.objr pageIdx (0 + k)) h4
        simpa using this
    | succ po2 =>
      rw [List.getElem?_cons_succ] at hpo
      have hvalid2 : ∀ eid ∈ lli,
          eid < (annotLoopPage lli pageIdx pg0 0 s).2.store.length := by
        intro eid he
        have h1 := hvalid eid he
        have h2 := (annotLoopPage_store lli pageIdx pg0 0 s).1
        omega
      obtain ⟨key, eid, aOut, pgOut, h1, h2, h3, h4, h5⟩ := ih (pageIdx + 1)
        (annotLoopPage lli pageIdx pg0 0 s).2 hvalid2 po2 k pg a hpo hk hlink
      refine ⟨key, eid, aOut, pgOut, by simpa using h1, h2, h3, h4, ?_⟩
      have : pageIdx + 1 + po2 = pageIdx + (po2 + 1) := by omega
      rw [← this]
      exact h5

/-- Claim C9 as amended: every structure element the builder creates
has its `/P` equal to the element whose `/K` contains it (parent
pointers are installed before the child is appended); but every `Link`
element the annotation linker synthesises carries `/P` pointing at the
structure tree root (index 0) even though it is appended under the
document element. -/
theorem struct_parent_pointers (tree : DocumentNode)
    (pages : List (List Annot)) (leafIds : List Nat) :
    parentOk (buildStructTree tree).1 ∧
    (∀ (i : Nat) (r : ElemRec), (buildStructTree tree).1.length ≤ i →
      (linkAnnotsToStructure pages leafIds (buildStructTree tree).1).2.store[i]? =
        some r →
      r.stype = "Link" ∧ r.parent = 0) := by
  refine ⟨buildStructTree_parentOk tree, ?_⟩
  intro i r hge hr
  exact (annotLoopPages_store leafIds pages 0
    ⟨(buildStructTree tree).1, 0, pages.length, []⟩).2.2 i r hge hr

/-- Witness for C9 (amended): the element the linker synthesises for a
link annotation on a one-paragraph document. -/
theorem struct_parent_pointers_witness :
    (⟨"Link", 0, some ("https://example.org"), none,
        KVal.one (KItem.objr 0 0)⟩ : ElemRec).stype = "Link" ∧
    (⟨"Link", 0, some ("https://example.org"), none,
        KVal.one (KItem.objr 0 0)⟩ : ElemRec).parent = 0 :=
  (struct_parent_pointers
    (.node .DOCUMENT "" [.node .PARAGRAPH ("x") []])
    ([[⟨"/Link", some ("https://example.org"), none, none, none, []⟩]]) []).2 3
    ⟨"Link", 0, some ("https://example.org"), none, KVal.one (KItem.objr 0 0)⟩
    (by decide) (by decide)

/-- Counterexample to C9 as stated: after linking a one-paragraph
document with one link annotation and no parser link leaves, the
synthesised element (index 3) sits in the document element's `/K`
(index 1) but its `/P` is the structure root (index 0), not 1. -/
theorem struct_parent_counterexample :
    3 ∈ kidsOf (kvalAt
      (linkAnnotsToStructure
        ([[⟨"/Link", some ("https://example.org"), none, none, none, []⟩]]) []
        (buildStructTree (.node .DOCUMENT "" [.node .PARAGRAPH ("x") []])).1).2.store 1) ∧
    ((linkAnnotsToStructure
        ([[⟨"/Link", some ("https://example.org"), none, none, none, []⟩]]) []
        (buildStructTree (.node .DOCUMENT "" [.node .PARAGRAPH ("x") []])).1).2.store[3]?).map
      ElemRec.parent = some 0 ∧
    (some 0 : Option Nat) ≠ some 1 := by
  refine ⟨by decide, by decide, by decide⟩

/-- Claim C10: the annotation linker leaves an existing `/Contents`
value unchanged (it writes `/Contents` only when the key is absent),
still assigns `/StructParent` and appends an OBJR to the owning
structure element, and modifies no other annotation keys; non-link
annotations are untouched. -/
theorem annot_linker_frame (pages : List (List Annot)) (leafIds : List Nat)
    (st0 : List ElemRec) (hvalid : ∀ eid ∈ leafIds, eid < st0.length) :
    List.Forall₂ (List.Forall₂ annotRel) pages
      (linkAnnotsToStructure pages leafIds st0).1 ∧
    (∀ (pi k : Nat) (pg : List Annot) (a : Annot),
      pages[pi]? = some pg → pg[k]? = some a → a.subtype = "/Link" →
      ∃ key eid aOut pgOut,
        (linkAnnotsToStructure pages leafIds st0).1[pi]? = some pgOut ∧
        pgOut[k]? = some aOut ∧ aOut.structParent = some key ∧
        (key, eid) ∈ (linkAnnotsToStructure pages leafIds st0).2.entries ∧
        KItem.objr pi k ∈
          kitemsOf (kvalAt (linkAnnotsToStructure pages leafIds st0).2.store eid)) := by
  constructor
  · exact annotLoopPages_rel leafIds pages 0 _
  · intro pi k pg a hpi hk hlink
    have := annotLoopPages_owner leafIds pages 0 ⟨st0, 0, pages.length, []⟩
      hvalid pi k pg a hpi hk hlink
    simpa using this

/-- Witness for C10: one link annotation that already has `/Contents`. -/
theorem annot_linker_frame_witness :
    List.Forall₂ (List.Forall₂ annotRel)
      ([[⟨"/Link", none, none, some ("kept"), none, []⟩]])
      (linkAnnotsToStructure
        ([[⟨"/Link", none, none, some ("kept"), none, []⟩]]) []
        [structRootRec]).1 :=
  (annot_linker_frame ([[⟨"/Link", none, none, some ("kept"), none, []⟩]]) []
    [structRootRec] (by decide)).1

/-! ## The parent tree (claim C3) -/

/-- A value in the parent tree's `/Nums`: for a page key, the indirect
array of owners indexed by MCID (0 denotes the structure root); for an
annotation key, the single owning element. -/
inductive NumsVal where
  | pageArr (owners : List Nat)
  | annotElem (id : Nat)
deriving DecidableEq, Repr

/-- The page entries of `_build_parent_tree`: pages in order, skipping
pages with an empty MCID table; each page pairs with the array of
owners of its MCIDs, falling back to the structure root (index 0). -/
def buildPageNums (own : List ((Nat × Nat) × Nat)) :
    Nat → List (List (Nat × String)) → List (Nat × NumsVal)
  | _, [] => []
  | pidx, pm :: rest =>
    if pm.isEmpty then buildPageNums own (pidx + 1) rest
    else (pidx, NumsVal.pageArr (pm.map (fun mt =>
        (own.lookup (pidx, mt.1)).getD 0))) :: buildPageNums own (pidx + 1) rest

/-- Embeds `_build_parent_tree`: the `/Nums` pairs — page entries
followed by the annotation parent entries. -/
def buildParentTree (pageMaps : List (List (Nat × String)))
    (own : List ((Nat × Nat) × Nat)) (annotEntries : List (Nat × Nat)) :
    List (Nat × NumsVal) :=
  buildPageNums own 0 pageMaps ++
    annotEntries.map (fun ke => (ke.1, NumsVal.annotElem ke.2))

/-- The `/ParentTreeNextKey` assignment in `tag`. -/
def parentTreeNextKey (numPages : Nat) (annotEntries : List (Nat × Nat)) : Nat :=
  numPages + annotEntries.length

theorem lookup_append {α β : Type} [BEq α] (l1 l2 : List (α × β)) (a : α) :
    (l1 ++ l2).lookup a =
      match l1.lookup a with
      | some b => some b
      | none => l2.lookup a := by
  induction l1 with
  | nil => simp [List.lookup]
  | cons kv rest ih =>
    rw [List.cons_append, List.lookup, List.lookup]
    by_cases h : a == kv.1
    · simp [h]
    · simp only [Bool.not_eq_true] at h
      simp [h, ih]

theorem buildPageNums_lookup_lt (own : List ((Nat × Nat) × Nat)) :
    ∀ (maps : List (List (Nat × String))) (s p : Nat), p < s →
      (buildPageNums own s maps).lookup p = none := by
  intro maps
  induction maps with
  | nil => intro s p _; rfl
  | cons pm rest ih =>
    intro s p hp
    rw [buildPageNums]
    split
    · exact ih (s + 1) p (by omega)
    · rw [List.lookup]
      have hne : (p == s) = false := by
        simp
        omega
      rw [hne]
      exact ih (s + 1) p (by omega)

theorem buildPageNums_lookup_ge (own : List ((Nat × Nat) × Nat)) :
    ∀ (maps : List (List (Nat × String))) (s p : Nat), s + maps.length ≤ p →
      (buildPageNums own s maps).lookup p = none := by
  intro maps
  induction maps with
  | nil => intro s p _; rfl
  | cons pm rest ih =>
    intro s p hp
    rw [List.length_cons] at hp
    rw [buildPageNums]
    split
    · exact ih (s + 1) p (by omega)
    · rw [List.lookup]
      have hne : (p == s) = false := by
        simp
        omega
      rw [hne]
      exact ih (s + 1) p (by omega)

theorem buildPageNums_lookup (own : List ((Nat × Nat) × Nat)) :
    ∀ (maps : List (List (Nat × String))) (s p : Nat), s ≤ p →
      ∀ pm, maps[p - s]? = some pm →
        (buildPageNums own s maps).lookup p =
          if pm.isEmpty then none
          else some (NumsVal.pageArr (pm.map (fun mt =>
            (own.lookup (p, mt.1)).getD 0))) := by
  intro maps
  induction maps with
  | nil =>
    intro s p _ pm hpm
    simp at hpm
  | cons pm0 rest ih =>
    intro s p hsp pm hpm
    by_cases hps : p = s
    · subst hps
      rw [Nat.sub_self, List.getElem?_cons_zero] at hpm
      cases hpm
      rw [buildPageNums]
      split
      · exact buildPageNums_lookup_lt own rest (p + 1) p (by omega)
      · rw [List.lookup]
        have heq : (p == p) = true := by simp
        rw [heq]
    · have hgt : s < p := by omega
      have hsub : p - s = (p - (s + 1)) + 1 := by omega
      rw [hsub, List.getElem?_cons_succ] at hpm
      rw [buildPageNums]
      split
      · exact ih (s + 1) p (by omega) pm hpm
      · rw [List.lookup]
        have hne : (p == s) = false := by
          simp
          omega
        rw [hne]
        exact ih (s + 1) p (by omega) pm hpm

theorem annotNums_lookup :
    ∀ (entries : List (Nat × Nat)) (N j : Nat),
      entries.map Prod.fst = List.range' N entries.length →
      ∀ e, entries[j]? = some e →
        (entries.map (fun ke => (ke.1, NumsVal.annotElem ke.2))).lookup (N + j) =
          some (NumsVal.annotElem e.2) := by
  intro entries
  induction entries with
  | nil =>
    intro N j _ e he
    simp at he
  | cons e0 rest ih =>
    intro N j hkeys e he
    rw [List.map_cons, List.length_cons, List.range'_succ] at hkeys
    have hk0 : e0.1 = N := (List.cons.injEq .. ▸ hkeys).1
    have hkrest : rest.map Prod.fst = List.range' (N + 1) rest.length :=
      (List.cons.injEq .. ▸ hkeys).2
    cases j with
    | zero =>
      rw [List.getElem?_cons_zero] at he
      cases he
      rw [List.map_cons, List.lookup]
      have heq : (N + 0 == e0.1) = true := by
        simp [hk0]
      rw [heq]
    | succ j2 =>
      rw [List.getElem?_cons_succ] at he
      rw [List.map_cons, List.lookup]
      have hne : (N + (j2 + 1) == e0.1) = false := by
        simp [hk0]
      rw [hne]
      have := ih (N + 1) j2 hkrest e he
      rw [show N + 1 + j2 = N + (j2 + 1) by omega] at this
      exact this

theorem annotNums_lookup_lt :
    ∀ (entries : List (Nat × Nat)) (N p : Nat),
      entries.map Prod.fst = List.range' N entries.length → p < N →
      (entries.map (fun ke => (ke.1, NumsVal.annotElem ke.2))).lookup p = none := by
  intro entries
  induction entries with
  | nil => intro N p _ _; rfl
  | cons e0 rest ih =>
    intro N p hkeys hp
    rw [List.map_cons, List.length_cons, List.range'_succ] at hkeys
    have hk0 : e0.1 = N := (List.cons.injEq .. ▸ hkeys).1
    have hkrest : rest.map Prod.fst = List.range' (N + 1) rest.length :=
      (List.cons.injEq .. ▸ hkeys).2
    rw [List.map_cons, List.lookup]
    have hne : (p == e0.1) = false := by
      simp [hk0]
      omega
    rw [hne]
    exact ih (N + 1) p hkrest (by omega)

/-- Claim C3: the parent tree pairs each page that has MCIDs with the
array whose `i`-th element is the recorded owner of MCID `i` (falling
back to the structure root, index 0); pages without MCIDs get no entry;
each annotation key `N + j` pairs with the `j`-th annotation entry's
owning element (the linker allocates exactly the keys `N..N+A-1`); and
`/ParentTreeNextKey` is `N + A`. -/
theorem parent_tree_correct (pageMaps : List (List (Nat × String)))
    (own : List ((Nat × Nat) × Nat)) (annotEntries : List (Nat × Nat))
    (hdense : ∀ pm ∈ pageMaps, pm.map Prod.fst = List.range pm.length)
    (hkeys : annotEntries.map Prod.fst =
      List.range' pageMaps.length annotEntries.length) :
    (∀ (p : Nat) (pm : List (Nat × String)), pageMaps[p]? = some pm →
      (pm ≠ [] →
        (buildParentTree pageMaps own annotEntries).lookup p =
          some (NumsVal.pageArr ((List.range pm.length).map
            (fun i => (own.lookup (p, i)).getD 0)))) ∧
      (pm = [] →
        (buildParentTree pageMaps own annotEntries).lookup p = none)) ∧
    (∀ (j : Nat) (e : Nat × Nat), annotEntries[j]? = some e →
      (buildParentTree pageMaps own annotEntries).lookup (pageMaps.length + j) =
        some (NumsVal.annotElem e.2)) ∧
    parentTreeNextKey pageMaps.length annotEntries =
      pageMaps.length + annotEntries.length ∧
    (∀ (pages : List (List Annot)) (leafIds : List Nat) (st0 : List ElemRec),
      ((linkAnnotsToStructure pages leafIds st0).2.entries).map Prod.fst =
        List.range' pages.length
          ((linkAnnotsToStructure pages leafIds st0).2.entries.length)) := by
  refine ⟨?_, ?_, rfl, ?_⟩
  · intro p pm hpm
    have hplt : p < pageMaps.length := (List.getElem?_eq_some_iff.mp hpm).1
    have hpage := buildPageNums_lookup own pageMaps 0 p (by omega) pm
      (by rw [Nat.sub_zero]; exact hpm)
    constructor
    · intro hne
      rw [buildParentTree, lookup_append, hpage,
        if_neg (by simpa [List.isEmpty_iff] using hne)]
      have harr : pm.map (fun mt => (own.lookup (p, mt.1)).getD 0) =
          (List.range pm.length).map (fun i => (own.lookup (p, i)).getD 0) := by
        rw [← hdense pm (List.getElem?_mem hpm), List.map_map]
        rfl
      rw [harr]
    · intro hnil
      rw [buildParentTree, lookup_append, hpage,
        if_pos (by simp [hnil])]
      exact annotNums_lookup_lt annotEntries pageMaps.length p hkeys hplt
  · intro j e he
    have hjlt : j < annotEntries.length := (List.getElem?_eq_some_iff.mp he).1
    rw [buildParentTree, lookup_append,
      buildPageNums_lookup_ge own pageMaps 0 (pageMaps.length + j) (by omega)]
    exact annotNums_lookup annotEntries pageMaps.length j hkeys e he
  · intro pages leafIds st0
    obtain ⟨newE, hE, hkeysE, _⟩ :=
      annotLoopPages_entries leafIds pages 0 ⟨st0, 0, pages.length, []⟩
    have hE2 : (linkAnnotsToStructure pages leafIds st0).2.entries = newE := by
      rw [linkAnnotsToStructure]
      simpa using hE
    rw [hE2, hkeysE]

/-- Witness for C3: two pages (the second without MCIDs) and one
annotation entry with key `N = 2`. -/
theorem parent_tree_correct_witness :
    (buildParentTree ([[(0, "a")], []]) [] ([(2, 5)])).lookup 0 =
      some (NumsVal.pageArr ((List.range 1).map
        (fun i => ((([] : List ((Nat × Nat) × Nat)).lookup (0, i)).getD 0)))) :=
  ((parent_tree_correct ([[(0, "a")], []]) [] ([(2, 5)])
    (by decide) (by decide)).1 0 ([(0, "a")]) (by decide)).1 (by decide)

end Altex
